import Mathlib

/-!
Verification development for the adoc-testing repository.

The repository consists of two Python scripts:
- scripts/format-cli-modules.py : rewrites rhoas CLI command reference
  modules (title promotion, heading normalization, link-to-xref conversion,
  option-to-definition-list conversion) and injects a development preview
  admonition into the assembly file;
- scripts/generate-cli-assembly.py : writes the assembly file aggregating
  the per-command modules.

Strings are modelled as List Char.  Python regular-expression passes are
embedded as specialized deterministic matchers implementing the exact
backtracking semantics of the concrete patterns used by the source
(verified case by case against the CPython re module semantics).  The
character classes implement the ASCII fragment of the Python classes,
which covers the documents this tool processes.
-/

namespace Adoc

/-- Python whitespace class (ASCII fragment of the regex class for s). -/
def pyIsSpace (c : Char) : Bool :=
  c = ' ' || c = '\t' || c = '\n' || c = '\r' || c = '\x0b' || c = '\x0c'

/-- Python word-character class (ASCII fragment of the regex class for w). -/
def isWordChar (c : Char) : Bool :=
  c.isAlpha || c.isDigit || c = '_'

/-- ASCII lowercase letter, the regex class a-z. -/
def isLowerAZ (c : Char) : Bool :=
  'a' ≤ c && c ≤ 'z'

/-- Whether the pattern list is a leading segment of the string list,
as used by Python startswith and by substring search. -/
def begins : List Char → List Char → Bool
  | _, [] => true
  | [], _ :: _ => false
  | c :: cs, p :: ps => c = p && begins cs ps

/-- Python substring containment, the operator in on strings. -/
def hasSub : List Char → List Char → Bool
  | [], pat => begins [] pat
  | c :: cs, pat => begins (c :: cs) pat || hasSub cs pat

/-- One fuel-indexed step list for Python str.replace: scan left to right,
replacing each non-overlapping occurrence of the pattern. -/
def replaceAllF : Nat → List Char → List Char → List Char → List Char
  | 0, s, _, _ => s
  | _ + 1, [], _, _ => []
  | fuel + 1, c :: cs, pat, rep =>
    if begins (c :: cs) pat then rep ++ replaceAllF fuel ((c :: cs).drop pat.length) pat rep
    else c :: replaceAllF fuel cs pat rep

/-- Python str.replace(old, new): replaces every non-overlapping occurrence,
left to right.  An empty pattern inserts the replacement at every gap,
as CPython does. -/
def replaceAll (s pat rep : List Char) : List Char :=
  if pat = [] then rep ++ (s.map (fun c => c :: rep)).foldr (· ++ ·) []
  else replaceAllF s.length s pat rep

/-- Fuel-indexed count of non-overlapping occurrences, scanning left to
right exactly like replaceAllF. -/
def countOccF : Nat → List Char → List Char → Nat
  | 0, _, _ => 0
  | _ + 1, [], _ => 0
  | fuel + 1, c :: cs, pat =>
    if begins (c :: cs) pat then 1 + countOccF fuel ((c :: cs).drop pat.length) pat
    else countOccF fuel cs pat

/-- Number of non-overlapping occurrences of a pattern, left to right. -/
def countOcc (s pat : List Char) : Nat := countOccF s.length s pat

/-- Python str.lstrip(): drop leading whitespace. -/
def pyLstrip (l : List Char) : List Char := l.dropWhile pyIsSpace

/-- Python str.rstrip(): drop trailing whitespace. -/
def pyRstrip (l : List Char) : List Char := (l.reverse.dropWhile pyIsSpace).reverse

/-- Python str.strip(): drop whitespace at both ends. -/
def pyStrip (l : List Char) : List Char := pyRstrip (pyLstrip l)

/-- ASCII lowering of one character, the ASCII fragment of Python str.lower,
written as an explicit table so that its range is evident. -/
def pyToLower (c : Char) : Char :=
  match c with
  | 'A' => 'a' | 'B' => 'b' | 'C' => 'c' | 'D' => 'd' | 'E' => 'e'
  | 'F' => 'f' | 'G' => 'g' | 'H' => 'h' | 'I' => 'i' | 'J' => 'j'
  | 'K' => 'k' | 'L' => 'l' | 'M' => 'm' | 'N' => 'n' | 'O' => 'o'
  | 'P' => 'p' | 'Q' => 'q' | 'R' => 'r' | 'S' => 's' | 'T' => 't'
  | 'U' => 'u' | 'V' => 'v' | 'W' => 'w' | 'X' => 'x' | 'Y' => 'y'
  | 'Z' => 'z' | other => other

/-- ASCII raising of one character, the ASCII fragment of Python str.upper. -/
def pyToUpper (c : Char) : Char :=
  match c with
  | 'a' => 'A' | 'b' => 'B' | 'c' => 'C' | 'd' => 'D' | 'e' => 'E'
  | 'f' => 'F' | 'g' => 'G' | 'h' => 'H' | 'i' => 'I' | 'j' => 'J'
  | 'k' => 'K' | 'l' => 'L' | 'm' => 'M' | 'n' => 'N' | 'o' => 'O'
  | 'p' => 'P' | 'q' => 'Q' | 'r' => 'R' | 's' => 'S' | 't' => 'T'
  | 'u' => 'U' | 'v' => 'V' | 'w' => 'W' | 'x' => 'X' | 'y' => 'Y'
  | 'z' => 'Z' | other => other

/-- Python str.capitalize(): first character raised, the rest lowered. -/
def pyCapitalize : List Char → List Char
  | [] => []
  | c :: cs => pyToUpper c :: cs.map pyToLower

/-- Modular documentation abstract marker, the constant ABSTRACT of
format-cli-modules.py. -/
def ABSTRACT : List Char := "[role=\"_abstract\"]".data

/-- The development preview admonition, the constant DEV_PREVIEW_NOTE of
format-cli-modules.py. -/
def DEV_PREVIEW_NOTE : List Char :=
  ("[IMPORTANT]\n====\nThe `rhoas` command-line interface (CLI) is currently available for Development Preview. Development Preview releases provide early access to a limited set of features that might not be fully tested and that might change in the final GA version. Users should not use Development Preview software in production or for business-critical workloads. Limited documentation is available for Development Preview releases and is typically focused on fundamental user goals.\n====").data

/-! ## Title pass

Embeds the search for the anchored pattern matching two equals signs, one
whitespace, the literal rhoas, an optional whitespace, the rest of the
line (group 1), a maximal nonempty newline run (group 2) and a nonempty
rest of line (group 3).  The pattern is anchored at position zero because
the source compiles it without the MULTILINE flag.  The deterministic
algorithm below realizes the backtracking order of the engine: the
optional whitespace is consumed greedily first and given back only when
the remainder of the pattern cannot match. -/

/-- Match of the dot-star, newline-plus, dot-plus tail of the title
pattern against the remainder of the content; ext is content already
committed to group 1 by the optional-whitespace branch.  Returns the tail
of group 1, group 2 and group 3. -/
def titleTail (ext rest : List Char) : Option (List Char × List Char × List Char) :=
  let lineA := rest.takeWhile (· != '\n')
  let after := rest.dropWhile (· != '\n')
  match after with
  | '\n' :: _ =>
    let run := after.takeWhile (· == '\n')
    let rem := after.dropWhile (· == '\n')
    match rem with
    | [] => none
    | _ :: _ => some (ext ++ lineA, run, rem.takeWhile (· != '\n'))
  | _ => none

/-- The anchored title search of format_command_file: returns the three
groups of the match at position zero, if any. -/
def titleMatch (c : List Char) : Option (List Char × List Char × List Char) :=
  match c with
  | '=' :: '=' :: w :: rest =>
    if pyIsSpace w then
      match rest with
      | 'r' :: 'h' :: 'o' :: 'a' :: 's' :: rest2 =>
        let hd : List Char := '=' :: '=' :: w :: 'r' :: 'h' :: 'o' :: 'a' :: 's' :: []
        match rest2 with
        | '\n' :: rest3 =>
          match titleTail ['\n'] rest3 with
          | some (t, g2, g3) => some (hd ++ t, g2, g3)
          | none =>
            let run := rest2.takeWhile (· == '\n')
            let rem := rest2.dropWhile (· == '\n')
            match rem with
            | [] => none
            | _ :: _ => some (hd, run, rem.takeWhile (· != '\n'))
        | _ =>
          match titleTail [] rest2 with
          | some (t, g2, g3) => some (hd ++ t, g2, g3)
          | none => none
      | _ => none
    else none
  | _ => none

/-- The title promotion pass of format_command_file: if the title pattern
matches, the whole matched text is replaced, everywhere it occurs, by the
promoted title followed by a blank line, the abstract marker and the
description line. -/
def titlePass (content : List Char) : List Char :=
  match titleMatch content with
  | some (g1, g2, g3) =>
    replaceAll content (g1 ++ g2 ++ g3) (g1.drop 1 ++ '\n' :: '\n' :: (ABSTRACT ++ '\n' :: g3))
  | none => content

/-! ## Heading pass

Embeds scanning for the unanchored pattern matching a run of three or
more equals signs followed by one whitespace (group 1) and a nonempty
rest of line (group 2). -/

/-- Attempt of the heading pattern at the current position: on success
returns the two groups and the remainder of the content after the
match. -/
def headingMatchAt (s : List Char) : Option ((List Char × List Char) × List Char) :=
  let eqs := s.takeWhile (· == '=')
  if eqs.length ≥ 3 then
    match s.dropWhile (· == '=') with
    | w :: rest =>
      if pyIsSpace w then
        match rest.takeWhile (· != '\n') with
        | [] => none
        | txt => some ((eqs ++ [w], txt), rest.dropWhile (· != '\n'))
      else none
    | [] => none
  else none

/-- Fuel-indexed scan of re.findall for the heading pattern: try each
position left to right, resuming after the end of every match. -/
def headingFindAllF : Nat → List Char → List (List Char × List Char)
  | 0, _ => []
  | _ + 1, [] => []
  | fuel + 1, c :: cs =>
    match headingMatchAt (c :: cs) with
    | some (groups, rest) => groups :: headingFindAllF fuel rest
    | none => headingFindAllF fuel cs

/-- All heading matches of the content, in scan order. -/
def headingFindAll (s : List Char) : List (List Char × List Char) :=
  headingFindAllF s.length s

/-- The subsection normalization pass of format_command_file: every
matched heading text is replaced, everywhere it occurs, by a discrete
marker line followed by the heading with one marker stripped and the
text capitalized. -/
def headingPass (content : List Char) : List Char :=
  (headingFindAll content).foldl
    (fun acc h =>
      replaceAll acc (h.1 ++ h.2)
        ("[discrete]\n".data ++ h.1.drop 1 ++ pyCapitalize h.2))
    content

/-! ## Link pass

Embeds scanning for the unanchored pattern matching a star, one
whitespace and the literal link colon (group 1), a nonempty run of word
characters and hyphens (group 2), a brace-delimited nonempty word run
(group 3), a bracketed nonempty text (group 4, greedy, so it extends to
the last closing bracket of the line that leaves a nonempty description)
and a nonempty rest of line (group 5). -/

/-- Split the rest of the line after the opening bracket at the last
closing bracket that has at least one character before it and at least
one character after it on the line; returns the bracket content and the
description. -/
def bracketSplit (l : List Char) : Option (List Char × List Char) :=
  match l.reverse with
  | [] => none
  | last :: rt =>
    match rt.dropWhile (· != ']') with
    | ']' :: innerRev =>
      match innerRev with
      | [] => none
      | _ :: _ => some (innerRev.reverse, (rt.takeWhile (· != ']')).reverse ++ [last])
    | _ => none

/-- Attempt of the link pattern at the current position: on success
returns the five groups and the remainder of the content after the
match. -/
def linkMatchAt (s : List Char) :
    Option ((List Char × List Char × List Char × List Char × List Char) × List Char) :=
  match s with
  | '*' :: w :: 'l' :: 'i' :: 'n' :: 'k' :: ':' :: rest =>
    if pyIsSpace w then
      let anchor := rest.takeWhile (fun c => isWordChar c || c = '-')
      let r3 := rest.dropWhile (fun c => isWordChar c || c = '-')
      match anchor with
      | [] => none
      | _ :: _ =>
        match r3 with
        | '\x7b' :: r4 =>
          let sfx := r4.takeWhile isWordChar
          let r5 := r4.dropWhile isWordChar
          match sfx with
          | [] => none
          | _ :: _ =>
            match r5 with
            | '\x7d' :: '[' :: r7 =>
              let lineR := r7.takeWhile (· != '\n')
              match bracketSplit lineR with
              | some (inner, desc) =>
                match desc with
                | [] => none
                | _ :: _ =>
                  some ((['*', w, 'l', 'i', 'n', 'k', ':'], anchor,
                         '\x7b' :: (sfx ++ ['\x7d']), '[' :: (inner ++ [']']), desc),
                        r7.dropWhile (· != '\n'))
              | none => none
            | _ => none
        | _ => none
    else none
  | _ => none

/-- Fuel-indexed scan of re.findall for the link pattern. -/
def linkFindAllF :
    Nat → List Char → List (List Char × List Char × List Char × List Char × List Char)
  | 0, _ => []
  | _ + 1, [] => []
  | fuel + 1, c :: cs =>
    match linkMatchAt (c :: cs) with
    | some (groups, rest) => groups :: linkFindAllF fuel rest
    | none => linkFindAllF fuel cs

/-- All link matches of the content, in scan order. -/
def linkFindAll (s : List Char) :
    List (List Char × List Char × List Char × List Char × List Char) :=
  linkFindAllF s.length s

/-- The link conversion pass of format_command_file: every matched link
text is replaced, everywhere it occurs, by a bullet with an xref macro
whose anchor id has hyphens replaced by underscores and an underscore
prefixed, the original bracketed text, a space and the left-stripped
description.  The brace-delimited group of the match is not reproduced
in the replacement. -/
def linkPass (content : List Char) : List Char :=
  (linkFindAll content).foldl
    (fun acc l =>
      replaceAll acc (l.1 ++ l.2.1 ++ l.2.2.1 ++ l.2.2.2.1 ++ l.2.2.2.2)
        ("* xref:_".data ++ replaceAll l.2.1 ['-'] ['_'] ++ l.2.2.2.1
          ++ ' ' :: pyLstrip l.2.2.2.2))
    content

/-! ## Option pass

Embeds scanning for the six-group option pattern: an optional opening
code-block delimiter line of four dots (group 1), a line-anchored run of
two or more whitespace characters (group 2, greedy with backtracking),
an option name (group 3, three alternatives in order: short flag with
comma and long flag; long flag alone; or any nonempty line text preceded
by five whitespace characters and followed by five whitespace
characters), an optional whitespace-plus-word data type (group 4), the
rest of the line (group 5) and an optional closing code-block delimiter
(group 6).  Positions are described by the reversed list of characters
before them, which supports the line-start anchor and the lookbehind. -/

/-- Option match tuple: the six groups, in order. -/
structure OptMatch where
  g1 : List Char
  g2 : List Char
  g3 : List Char
  g4 : List Char
  g5 : List Char
  g6 : List Char
deriving DecidableEq

/-- The text matched by an option tuple, as rebuilt by the join in the
replacement loop; the groups partition the match, so this is the matched
span. -/
def OptMatch.joined (m : OptMatch) : List Char :=
  m.g1 ++ (m.g2 ++ (m.g3 ++ (m.g4 ++ (m.g5 ++ m.g6))))

/-- A position is at a line start when nothing precedes it or the
previous character is a newline. -/
def atLineStart : List Char → Bool
  | [] => true
  | c :: _ => c = '\n'

/-- The next five characters exist and are all whitespace. -/
def next5ws : List Char → Bool
  | a :: b :: c :: d :: e :: _ =>
    pyIsSpace a && pyIsSpace b && pyIsSpace c && pyIsSpace d && pyIsSpace e
  | _ => false

/-- First option-name alternative: dash, word character, comma, one
whitespace, double dash, nonempty lowercase run. -/
def altOne (s : List Char) : Option (List Char × List Char) :=
  match s with
  | '-' :: x :: ',' :: w :: '-' :: '-' :: rest =>
    if isWordChar x && pyIsSpace w then
      match rest.takeWhile isLowerAZ with
      | [] => none
      | run => some ('-' :: x :: ',' :: w :: '-' :: '-' :: run, rest.dropWhile isLowerAZ)
    else none
  | _ => none

/-- Second option-name alternative: double dash followed by a nonempty
run of lowercase letters and hyphens. -/
def altTwo (s : List Char) : Option (List Char × List Char) :=
  match s with
  | '-' :: '-' :: rest =>
    match rest.takeWhile (fun c => isLowerAZ c || c = '-') with
    | [] => none
    | run => some ('-' :: '-' :: run, rest.dropWhile (fun c => isLowerAZ c || c = '-'))
  | _ => none

/-- Greedy search for the third alternative: the longest nonempty prefix
of the current line whose end is followed by five whitespace
characters. -/
def alt3Search (s : List Char) : Nat → Option (List Char × List Char)
  | 0 => none
  | k + 1 =>
    if next5ws (s.drop (k + 1)) then some (s.take (k + 1), s.drop (k + 1))
    else alt3Search s k

/-- Third option-name alternative: lookbehind of five whitespace
characters, then a nonempty line text followed by five whitespace
characters. -/
def altThree (bef s : List Char) : Option (List Char × List Char) :=
  if next5ws bef then alt3Search s (s.takeWhile (· != '\n')).length else none

/-- The option-name group: the three alternatives tried in pattern
order. -/
def optGroup3 (bef s : List Char) : Option (List Char × List Char) :=
  match altOne s with
  | some r => some r
  | none =>
    match altTwo s with
    | some r => some r
    | none => altThree bef s

/-- Backtracking of the leading-whitespace group: lengths are tried from
the maximal whitespace run down to two, and the first length at which
the option-name group matches wins. -/
def optG2G3 (bef s : List Char) : Nat → Option (List Char × List Char × List Char)
  | 0 => none
  | n + 1 =>
    if n + 1 ≥ 2 then
      match optGroup3 ((s.take (n + 1)).reverse ++ bef) (s.drop (n + 1)) with
      | some (g3, rest) => some (s.take (n + 1), g3, rest)
      | none => optG2G3 bef s n
    else none

/-- Groups four, five and six, which always succeed: an optional
whitespace-plus-word-run data type, the greedy rest of line, and an
optional newline-plus-four-dots closing delimiter.  Returns the groups
and the remainder after the match. -/
def optTail (s : List Char) : (List Char × List Char × List Char) × List Char :=
  let g4s :=
    match s with
    | c :: rest =>
      if pyIsSpace c then
        match rest.takeWhile isWordChar with
        | [] => (([] : List Char), s)
        | run => (c :: run, rest.dropWhile isWordChar)
      else ([], s)
    | [] => ([], s)
  let g5 := g4s.2.takeWhile (· != '\n')
  let s5 := g4s.2.dropWhile (· != '\n')
  match s5 with
  | '\n' :: '.' :: '.' :: '.' :: '.' :: rest => ((g4s.1, g5, ['\n', '.', '.', '.', '.']), rest)
  | _ => ((g4s.1, g5, []), s5)

/-- The option pattern after the optional opening delimiter: groups two
and three with backtracking, then the always-succeeding tail. -/
def optionCore (g1 bef s : List Char) : Option (OptMatch × List Char) :=
  match optG2G3 bef s (s.takeWhile pyIsSpace).length with
  | some (g2, g3, rest) =>
    let t := optTail rest
    some (⟨g1, g2, g3, t.1.1, t.1.2.1, t.1.2.2⟩, t.2)
  | none => none

/-- Attempt of the full option pattern at the current position.  The
position must be a line start because both the optional opening
delimiter and the whitespace group are anchored; the opening delimiter,
being greedy, is tried present first. -/
def optionMatchAt (bef s : List Char) : Option (OptMatch × List Char) :=
  if atLineStart bef then
    match s with
    | '.' :: '.' :: '.' :: '.' :: '\n' :: rest =>
      match optionCore "....\n".data ('\n' :: '.' :: '.' :: '.' :: '.' :: bef) rest with
      | some r => some r
      | none => optionCore [] bef s
    | _ => optionCore [] bef s
  else none

/-- Fuel-indexed scan of re.findall for the option pattern, carrying the
reversed list of characters before the current position. -/
def optionFindAllF : Nat → List Char → List Char → List OptMatch
  | 0, _, _ => []
  | _ + 1, _, [] => []
  | fuel + 1, bef, c :: cs =>
    match optionMatchAt bef (c :: cs) with
    | some (m, rest) => m :: optionFindAllF fuel (m.joined.reverse ++ bef) rest
    | none => optionFindAllF fuel (c :: bef) cs

/-- All option matches of the content, in scan order. -/
def optionFindAll (s : List Char) : List OptMatch := optionFindAllF s.length [] s

/-- The replacement text built for one option tuple by
format_command_file: a definition-list entry when the name starts with a
dash (with the italicized data type when present), a single newline for
a blank run starting with a space, and a continuation paragraph
otherwise. -/
def opReplacement (m : OptMatch) : List Char :=
  match m.g3 with
  | '-' :: _ =>
    if m.g4 = [] then '`' :: (m.g3 ++ "`::\n".data ++ pyStrip m.g5)
    else '`' :: (m.g3 ++ ' ' :: '_' :: (pyStrip m.g4 ++ "_`::\n".data ++ pyStrip m.g5))
  | ' ' :: _ => ['\n']
  | _ => '+' :: '\n' :: pyStrip m.g3

/-- The option conversion pass of format_command_file: every matched
span is replaced, everywhere it occurs, by its replacement text. -/
def optionPass (content : List Char) : List Char :=
  (optionFindAll content).foldl
    (fun acc m => replaceAll acc m.joined (opReplacement m)) content

/-- format_command_file of format-cli-modules.py as a pure content
transformation: the four passes in source order. -/
def format_command_file (content : List Char) : List Char :=
  optionPass (linkPass (headingPass (titlePass content)))

/-- add_dev_preview_note of format-cli-modules.py as a pure content
transformation, paired with whether the file is written back: when the
admonition already occurs the function returns without writing;
otherwise the admonition and a blank line are inserted before every
occurrence of the abstract marker and the file is written. -/
def add_dev_preview_note (content : List Char) : List Char × Bool :=
  if hasSub content DEV_PREVIEW_NOTE then (content, false)
  else (replaceAll content ABSTRACT (DEV_PREVIEW_NOTE ++ '\n' :: '\n' :: ABSTRACT), true)

/-- The content of the assembly file after add_dev_preview_note. -/
def applyNote (content : List Char) : List Char := (add_dev_preview_note content).1

/-! ## Assembly generator and file discovery -/

/-- Python string comparison: lexicographic by code point. -/
def pyStrLe : List Char → List Char → Bool
  | [], _ => true
  | _ :: _, [] => false
  | a :: as, b :: bs => if a < b then true else if a = b then pyStrLe as bs else false

/-- The relation form of pyStrLe, used by the sort. -/
def pyLeR (a b : List Char) : Prop := pyStrLe a b = true

instance : DecidableRel pyLeR := fun a b => by unfold pyLeR; infer_instance

/-- Python sorted() on file names of one directory: a stable sort by the
lexicographic order (same-directory paths compare by name). -/
def pySorted (names : List (List Char)) : List (List Char) :=
  List.insertionSort pyLeR names

/-- Python pathlib suffix: the extension from the last dot, when that
dot is neither the first nor the last character of the name. -/
def pySuffix (name : List Char) : List Char :=
  match (name.reverse.takeWhile (· != '.')).length, name.reverse.dropWhile (· != '.') with
  | tailLen, '.' :: stemRev =>
    if 0 < stemRev.length ∧ 0 < tailLen then '.' :: (name.reverse.takeWhile (· != '.')).reverse
    else []
  | _, _ => []

/-- Python pathlib stem: the name with the suffix removed. -/
def pyStem (name : List Char) : List Char :=
  match (name.reverse.takeWhile (· != '.')).length, name.reverse.dropWhile (· != '.') with
  | tailLen, '.' :: stemRev =>
    if 0 < stemRev.length ∧ 0 < tailLen then stemRev.reverse
    else name
  | _, _ => name

/-- Concatenation of a list of strings. -/
def concatAll : List (List Char) → List Char
  | [] => []
  | x :: xs => x ++ concatAll xs

/-- The constant ASSEMBLY_ID of generate-cli-assembly.py. -/
def ASSEMBLY_ID : List Char := "[id=\"cli-command-reference_\x7bcontext\x7d\"]".data

/-- The constant ASSEMBLY_TITLE of generate-cli-assembly.py. -/
def ASSEMBLY_TITLE : List Char := "= CLI command reference".data

/-- The constant ASSEMBLY_ABSTRACT_TEXT of generate-cli-assembly.py. -/
def ASSEMBLY_ABSTRACT_TEXT : List Char :=
  "You use the `rhoas` CLI to manage your application services from the command line.".data

/-- The constant ASSEMBLY_INCLUDE_DIRECTIVE of generate-cli-assembly.py. -/
def ASSEMBLY_INCLUDE_DIRECTIVE : List Char := "include::../\x7brhoas-module\x7d/".data

/-- The constant LEVELOFFSET of generate-cli-assembly.py. -/
def LEVELOFFSET : List Char := "[leveloffset=+1]".data

/-- The fixed header written by generate_command_ref_assembly before the
include directives: identifier line, title, abstract marker and abstract
text. -/
def assemblyHeader : List Char :=
  ASSEMBLY_ID ++ '\n' :: (ASSEMBLY_TITLE ++ '\n' :: '\n' ::
    (ABSTRACT ++ '\n' :: (ASSEMBLY_ABSTRACT_TEXT ++ '\n' :: '\n' :: [])))

/-- One include directive line for a module file name. -/
def includeLine (name : List Char) : List Char :=
  ASSEMBLY_INCLUDE_DIRECTIVE ++ name ++ LEVELOFFSET ++ ['\n']

/-- The directory entries the generator loop emits include directives
for: the sorted listing filtered by the adoc extension, in loop order. -/
def assemblyModules (names : List (List Char)) : List (List Char) :=
  (pySorted names).filter (fun n => decide (pySuffix n = ".adoc".data))

/-- generate_command_ref_assembly of generate-cli-assembly.py: the
content written to the (truncated) assembly file, as a function of the
directory listing. -/
def generate_command_ref_assembly (names : List (List Char)) : List Char :=
  assemblyHeader ++ concatAll ((assemblyModules names).map includeLine)

/-- The files selected by the loop of main in format-cli-modules.py: the
stem starts with ref-cli and the suffix is adoc. -/
def formatter_targets (names : List (List Char)) : List (List Char) :=
  names.filter (fun n => begins (pyStem n) "ref-cli".data && decide (pySuffix n = ".adoc".data))

/-! ## Predicates used to state the claims -/

/-- The content has a newline that is followed, possibly after further
newlines, by at least one non-newline character. -/
def hasNlThenText (l : List Char) : Bool :=
  ((l.dropWhile (· != '\n')).drop 1).any (· != '\n')

/-- The spec's product-command title pattern, stated independently of the
matcher: a second-level heading line starting with the product command
word after two equals signs and one whitespace, followed somewhere by a
newline and then by descriptive text. -/
def titleHeadingAt (c : List Char) : Bool :=
  match c with
  | '=' :: '=' :: w :: 'r' :: 'h' :: 'o' :: 'a' :: 's' :: rest =>
    pyIsSpace w && hasNlThenText rest
  | _ => false

/-- The first character, when there is one, can open neither the
code-block delimiter nor the whitespace group of the option pattern. -/
def headOkb : List Char → Bool
  | [] => true
  | c :: _ => c ≠ '.' && !(pyIsSpace c)

/-- Every line of the content begins with a character that can open
neither optional-delimiter nor whitespace group of the option pattern. -/
def linesOk : List Char → Bool
  | [] => true
  | c :: rest => (c != '\n' || headOkb rest) && linesOk rest

/-- The pattern has no nonempty proper border: no strict prefix of it is
also a suffix of it.  A pattern with this property cannot overlap an
occurrence of itself. -/
def noBorder (A : List Char) : Prop :=
  ∀ ℓ, ℓ < A.length → 0 < ℓ → A.take ℓ ≠ A.drop (A.length - ℓ)

/-- Hyphen-to-underscore conversion of one character, the pointwise form
of the anchor rewrite. -/
def underscoreHyphen (c : Char) : Char := if c = '-' then '_' else c

/-! ## Lemmas about begins, hasSub and replaceAll -/

theorem begins_append_self (p t : List Char) : begins (p ++ t) p = true := by
  induction p with
  | nil => cases t <;> rfl
  | cons c cs ih => simp [begins, ih]

theorem begins_extend {a p : List Char} (h : begins a p = true) (t : List Char) :
    begins (a ++ t) p = true := by
  induction p generalizing a with
  | nil => cases a ++ t <;> rfl
  | cons q qs ih =>
    cases a with
    | nil => simp [begins] at h
    | cons c cs =>
      simp only [begins, Bool.and_eq_true, decide_eq_true_eq] at h
      simp [begins, h.1, ih h.2]

theorem hasSub_of_begins : ∀ {s p : List Char}, begins s p = true → hasSub s p = true := by
  intro s p h
  cases s with
  | nil => simp [hasSub] at h ⊢; exact h
  | cons c cs => simp [hasSub, h]

theorem hasSub_cons (c : Char) {cs p : List Char} (h : hasSub cs p = true) :
    hasSub (c :: cs) p = true := by
  simp [hasSub, h]

theorem hasSub_cons_elim {c : Char} {cs p : List Char} (h : hasSub (c :: cs) p = false) :
    begins (c :: cs) p = false ∧ hasSub cs p = false := by
  simpa [hasSub] using h

theorem hasSub_nil_ne {p : List Char} (h : p ≠ []) : hasSub [] p = false := by
  cases p with
  | nil => exact absurd rfl h
  | cons q qs => rfl

theorem replaceAllF_nil (fuel : Nat) (pat rep : List Char) :
    replaceAllF fuel [] pat rep = [] := by
  cases fuel <;> rfl

theorem replaceAllF_no_sub {pat rep : List Char} :
    ∀ (fuel : Nat) (s : List Char), hasSub s pat = false → replaceAllF fuel s pat rep = s := by
  intro fuel
  induction fuel with
  | zero => intro s _; rfl
  | succ n ih =>
    intro s h
    cases s with
    | nil => rfl
    | cons c cs =>
      obtain ⟨h1, h2⟩ := hasSub_cons_elim h
      simp [replaceAllF, h1, ih cs h2]

theorem replaceAll_no_sub {s pat : List Char} (rep : List Char)
    (h : hasSub s pat = false) : replaceAll s pat rep = s := by
  have hne : pat ≠ [] := by
    intro he
    subst he
    cases s <;> simp [hasSub, begins] at h
  simp [replaceAll, hne, replaceAllF_no_sub _ _ h]

theorem replaceAll_self {s : List Char} (h : s ≠ []) (rep : List Char) :
    replaceAll s s rep = rep := by
  cases s with
  | nil => exact absurd rfl h
  | cons c cs =>
    have hb : begins (c :: cs) (c :: cs) = true := by
      simpa using begins_append_self (c :: cs) []
    simp only [replaceAll, if_neg (by simp : ¬(c :: cs = ([] : List Char)))]
    simp only [List.length_cons, replaceAllF, hb, if_pos]
    have hdrop : List.drop (cs.length + 1) (c :: cs) = [] := by
      simp
    rw [hdrop, replaceAllF_nil]
    simp

theorem hasSub_replaceAllF {pat rep sub : List Char} (hne : pat ≠ [])
    (hb : begins rep sub = true) :
    ∀ (fuel : Nat) (s : List Char), s.length ≤ fuel → hasSub s pat = true →
      hasSub (replaceAllF fuel s pat rep) sub = true := by
  intro fuel
  induction fuel with
  | zero =>
    intro s hlen hs
    have : s = [] := List.length_eq_zero.mp (Nat.le_zero.mp hlen)
    subst this
    exact absurd hs (by simp [hasSub_nil_ne hne])
  | succ n ih =>
    intro s hlen hs
    cases s with
    | nil => exact absurd hs (by simp [hasSub_nil_ne hne])
    | cons c cs =>
      by_cases hbeg : begins (c :: cs) pat = true
      · simp only [replaceAllF, hbeg, if_pos]
        exact hasSub_of_begins (begins_extend hb _)
      · have hbeg' : begins (c :: cs) pat = false := by
          simpa using hbeg
        have hs' : hasSub cs pat = true := by
          simpa [hasSub, hbeg'] using hs
        simp only [replaceAllF, hbeg', Bool.false_eq_true, if_neg, if_false]
        exact hasSub_cons _ (ih cs (by simpa using Nat.le_of_succ_le_succ hlen) hs')

theorem begins_iff_take {s p : List Char} :
    begins s p = true ↔ s.take p.length = p := by
  induction p generalizing s with
  | nil => simp [begins]
  | cons q qs ih =>
    cases s with
    | nil => simp [begins]
    | cons c cs => simp [begins, ih, List.take_succ_cons]

theorem not_begins_surround {A pre post : List Char} (hpre : pre ≠ [])
    (hnb : noBorder A) (h : hasSub pre A = false) :
    begins (pre ++ A ++ post) A = false := by
  by_contra hcon
  have hb : begins (pre ++ A ++ post) A = true := by
    simpa using hcon
  have htake := begins_iff_take.mp hb
  by_cases hlen : A.length ≤ pre.length
  · have : (pre ++ (A ++ post)).take A.length = pre.take A.length := by
      rw [List.append_assoc] at *
      exact List.take_append_of_le_length hlen
    rw [List.append_assoc] at htake
    rw [this] at htake
    have : begins pre A = true := begins_iff_take.mpr htake
    have : hasSub pre A = true := hasSub_of_begins this
    rw [this] at h
    exact absurd h (by simp)
  · push_neg at hlen
    have hℓpos : 0 < A.length - pre.length := by omega
    have hℓlt : A.length - pre.length < A.length := by
      have : 0 < pre.length := List.length_pos.mpr hpre
      omega
    rw [List.append_assoc] at htake
    rw [List.take_append_eq_append_take] at htake
    rw [List.take_of_length_le (by omega)] at htake
    rw [List.take_append_of_le_length (by omega)] at htake
    -- htake : pre ++ A.take (A.length - pre.length) = A
    have hdrop : A.drop pre.length = A.take (A.length - pre.length) := by
      conv_lhs => rw [← htake]
      exact List.drop_left pre _
    have := hnb (A.length - pre.length) hℓlt hℓpos
    rw [show A.length - (A.length - pre.length) = pre.length by omega] at this
    exact this hdrop.symm

theorem replaceAllF_surround {A rep : List Char} (hA : A ≠ []) (hnb : noBorder A) :
    ∀ (fuel : Nat) (pre post : List Char), (pre ++ A ++ post).length ≤ fuel →
      hasSub pre A = false → hasSub post A = false →
      replaceAllF fuel (pre ++ A ++ post) A rep = pre ++ rep ++ post := by
  intro fuel
  induction fuel with
  | zero =>
    intro pre post hlen _ _
    exfalso
    have hApos : 0 < A.length := List.length_pos.mpr hA
    have hlen' : (pre ++ A ++ post).length = pre.length + A.length + post.length := by
      rw [List.length_append, List.length_append]
    omega
  | succ n ih =>
    intro pre post hlen hpre hpost
    cases pre with
    | nil =>
      simp only [List.nil_append]
      have hb : begins (A ++ post) A = true := begins_append_self A post
      cases hApp : A ++ post with
      | nil =>
        exfalso
        have h1 : 0 < A.length := List.length_pos.mpr hA
        have h2 := congrArg List.length hApp
        simp only [List.length_append, List.length_nil] at h2
        omega
      | cons c cs =>
        rw [hApp] at hb
        rw [replaceAllF, if_pos hb, ← hApp, List.drop_left A post,
          replaceAllF_no_sub _ _ hpost]
    | cons c pre' =>
      have hb0 : begins ((c :: pre') ++ A ++ post) A = false :=
        not_begins_surround (by simp) hnb hpre
      have hpre' : hasSub pre' A = false := (hasSub_cons_elim hpre).2
      have hlen' : (pre' ++ A ++ post).length ≤ n := by
        have h1 : ((c :: pre') ++ A ++ post).length = (pre' ++ A ++ post).length + 1 := by
          simp [List.length_append]
        rw [h1] at hlen
        omega
      have hb : begins (c :: (pre' ++ (A ++ post))) A = false := by
        simpa only [List.cons_append, List.append_assoc] using hb0
      have step : replaceAllF (n + 1) (c :: (pre' ++ A ++ post)) A rep
          = c :: replaceAllF n (pre' ++ A ++ post) A rep := by
        rw [replaceAllF, if_neg]
        simp [hb]
      calc replaceAllF (n + 1) ((c :: pre') ++ A ++ post) A rep
          = replaceAllF (n + 1) (c :: (pre' ++ A ++ post)) A rep := by
            simp only [List.cons_append]
        _ = c :: replaceAllF n (pre' ++ A ++ post) A rep := step
        _ = c :: (pre' ++ rep ++ post) := by rw [ih pre' post hlen' hpre' hpost]
        _ = (c :: pre') ++ rep ++ post := by simp

theorem replaceAll_surround {A rep pre post : List Char} (hA : A ≠ [])
    (hnb : noBorder A) (hpre : hasSub pre A = false) (hpost : hasSub post A = false) :
    replaceAll (pre ++ A ++ post) A rep = pre ++ rep ++ post := by
  simp only [replaceAll, if_neg hA]
  exact replaceAllF_surround hA hnb _ pre post (Nat.le_refl _) hpre hpost

theorem replaceAllF_hyphen :
    ∀ (fuel : Nat) (l : List Char), l.length ≤ fuel →
      replaceAllF fuel l ['-'] ['_'] = l.map underscoreHyphen := by
  intro fuel
  induction fuel with
  | zero =>
    intro l hlen
    have : l = [] := List.length_eq_zero.mp (Nat.le_zero.mp hlen)
    subst this
    rfl
  | succ n ih =>
    intro l hlen
    cases l with
    | nil => rfl
    | cons c cs =>
      have hlen' : cs.length ≤ n := by
        simpa using Nat.le_of_succ_le_succ hlen
      by_cases hc : c = '-'
      · subst hc
        have hb : begins ('-' :: cs) ['-'] = true := by simp [begins]
        rw [replaceAllF, if_pos hb]
        simp [underscoreHyphen, ih cs hlen']
      · have hb : ¬(begins (c :: cs) ['-'] = true) := by simp [begins, hc]
        rw [replaceAllF, if_neg hb]
        simp [underscoreHyphen, hc, ih cs hlen']

theorem replaceAll_hyphen (l : List Char) :
    replaceAll l ['-'] ['_'] = l.map underscoreHyphen := by
  simp only [replaceAll, if_neg (by simp : ¬(['-'] = ([] : List Char)))]
  exact replaceAllF_hyphen _ l (Nat.le_refl _)

/-! ## Lemmas about takeWhile, dropWhile and the strip functions -/

theorem takeWhile_all {p : Char → Bool} {l : List Char} (h : ∀ c ∈ l, p c = true) :
    l.takeWhile p = l := by
  induction l with
  | nil => rfl
  | cons c cs ih =>
    have hc : p c = true := h c (by simp)
    simp [List.takeWhile_cons, hc, ih (fun d hd => h d (by simp [hd]))]

theorem dropWhile_all {p : Char → Bool} {l : List Char} (h : ∀ c ∈ l, p c = true) :
    l.dropWhile p = [] := by
  induction l with
  | nil => rfl
  | cons c cs ih =>
    have hc : p c = true := h c (by simp)
    simp [List.dropWhile_cons, hc, ih (fun d hd => h d (by simp [hd]))]

theorem takeWhile_middle {p : Char → Bool} {a : List Char} (h : ∀ c ∈ a, p c = true)
    {x : Char} (hx : p x = false) (t : List Char) :
    (a ++ x :: t).takeWhile p = a := by
  induction a with
  | nil => simp [List.takeWhile_cons, hx]
  | cons c cs ih =>
    have hc : p c = true := h c (by simp)
    simp [List.takeWhile_cons, hc, ih (fun d hd => h d (by simp [hd]))]

theorem dropWhile_middle {p : Char → Bool} {a : List Char} (h : ∀ c ∈ a, p c = true)
    {x : Char} (hx : p x = false) (t : List Char) :
    (a ++ x :: t).dropWhile p = x :: t := by
  induction a with
  | nil => simp [List.dropWhile_cons, hx]
  | cons c cs ih =>
    have hc : p c = true := h c (by simp)
    simp [List.dropWhile_cons, hc, ih (fun d hd => h d (by simp [hd]))]

theorem dropWhile_head_false {p : Char → Bool} :
    ∀ {l : List Char} {x : Char} {t : List Char}, l.dropWhile p = x :: t → p x = false := by
  intro l
  induction l with
  | nil => intro x t h; simp at h
  | cons c cs ih =>
    intro x t h
    by_cases hc : p c = true
    · rw [List.dropWhile_cons, if_pos hc] at h
      exact ih h
    · rw [List.dropWhile_cons, if_neg hc] at h
      cases h
      simpa using hc

theorem mem_dropWhile {p : Char → Bool} :
    ∀ {l : List Char} {x : Char}, x ∈ l.dropWhile p → x ∈ l := by
  intro l
  induction l with
  | nil => intro x h; simp at h
  | cons c cs ih =>
    intro x h
    by_cases hc : p c = true
    · rw [List.dropWhile_cons, if_pos hc] at h
      exact List.mem_cons_of_mem _ (ih h)
    · rw [List.dropWhile_cons, if_neg hc] at h
      exact h

theorem pyLstrip_sp (l : List Char) : pyLstrip (' ' :: l) = pyLstrip l := by
  simp [pyLstrip, List.dropWhile_cons, pyIsSpace]

theorem pyStrip_sp (l : List Char) : pyStrip (' ' :: l) = pyStrip l := by
  simp [pyStrip, pyLstrip_sp]

/-! ## Character preservation through the case functions -/

theorem pyToLower_ne {c X : Char} (hX : isLowerAZ X = false) (h : c ≠ X) :
    pyToLower c ≠ X := by
  unfold pyToLower
  split <;> intro heq <;> first
    | exact h heq
    | (subst heq; simp [isLowerAZ] at hX)

theorem pyToUpper_ne {c X : Char} (hX : ('A' ≤ X && X ≤ 'Z') = false) (h : c ≠ X) :
    pyToUpper c ≠ X := by
  unfold pyToUpper
  split <;> intro heq <;> first
    | exact h heq
    | (subst heq; simp at hX)

theorem pyCapitalize_ne {text : List Char} {X : Char}
    (hlo : isLowerAZ X = false) (hup : ('A' ≤ X && X ≤ 'Z') = false)
    (h : ∀ c ∈ text, c ≠ X) : ∀ c ∈ pyCapitalize text, c ≠ X := by
  cases text with
  | nil => intro c hc; simp [pyCapitalize] at hc
  | cons t ts =>
    intro c hc
    simp only [pyCapitalize, List.mem_cons, List.mem_map] at hc
    rcases hc with hc | ⟨d, hd, rfl⟩
    · subst hc
      exact pyToUpper_ne hup (h t (by simp))
    · exact pyToLower_ne hlo (h d (by simp [hd]))

/-! ## Emptiness of the scanners on contents that cannot match -/

theorem titlePass_of_none {c : List Char} (h : titleMatch c = none) : titlePass c = c := by
  simp [titlePass, h]

theorem titleMatch_sp (r : List Char) : titleMatch (' ' :: r) = none := rfl

theorem titleMatch_star (r : List Char) : titleMatch ('*' :: r) = none := rfl

theorem titleMatch_eq3 (r : List Char) : titleMatch ('=' :: '=' :: '=' :: r) = none := rfl

theorem headingMatchAt_no_eq {c : Char} (cs : List Char) (h : (c == '=') = false) :
    headingMatchAt (c :: cs) = none := by
  simp [headingMatchAt, List.takeWhile_cons, h]

theorem headingFindAllF_no_eq :
    ∀ (fuel : Nat) (s : List Char), (∀ c ∈ s, c ≠ '=') → headingFindAllF fuel s = [] := by
  intro fuel
  induction fuel with
  | zero => intro s _; rfl
  | succ n ih =>
    intro s h
    cases s with
    | nil => rfl
    | cons c cs =>
      have hc : (c == '=') = false := by
        simp [h c (by simp)]
      simp only [headingFindAllF, headingMatchAt_no_eq cs hc]
      exact ih cs (fun d hd => h d (by simp [hd]))

theorem headingFindAll_no_eq {s : List Char} (h : ∀ c ∈ s, c ≠ '=') :
    headingFindAll s = [] :=
  headingFindAllF_no_eq s.length s h

theorem headingPass_no_eq {s : List Char} (h : ∀ c ∈ s, c ≠ '=') :
    headingPass s = s := by
  simp [headingPass, headingFindAll_no_eq h]

theorem linkMatchAt_no_star {c : Char} (cs : List Char) (h : c ≠ '*') :
    linkMatchAt (c :: cs) = none := by
  rw [linkMatchAt.eq_def]
  split <;> simp_all

theorem linkFindAllF_no_star :
    ∀ (fuel : Nat) (s : List Char), (∀ c ∈ s, c ≠ '*') → linkFindAllF fuel s = [] := by
  intro fuel
  induction fuel with
  | zero => intro s _; rfl
  | succ n ih =>
    intro s h
    cases s with
    | nil => rfl
    | cons c cs =>
      simp only [linkFindAllF, linkMatchAt_no_star cs (h c (by simp))]
      exact ih cs (fun d hd => h d (by simp [hd]))

theorem linkFindAll_no_star {s : List Char} (h : ∀ c ∈ s, c ≠ '*') :
    linkFindAll s = [] :=
  linkFindAllF_no_star s.length s h

theorem linkPass_no_star {s : List Char} (h : ∀ c ∈ s, c ≠ '*') :
    linkPass s = s := by
  simp [linkPass, linkFindAll_no_star h]

theorem optionMatchAt_not_ls {bef s : List Char} (h : atLineStart bef = false) :
    optionMatchAt bef s = none := by
  simp [optionMatchAt, h]

theorem optionCore_no_ws {g1 bef : List Char} {c : Char} (cs : List Char)
    (h : pyIsSpace c = false) : optionCore g1 bef (c :: cs) = none := by
  simp [optionCore, List.takeWhile_cons, h, optG2G3]

theorem optionMatchAt_headOk {bef : List Char} {c : Char} (cs : List Char)
    (h1 : c ≠ '.') (h2 : pyIsSpace c = false) :
    optionMatchAt bef (c :: cs) = none := by
  by_cases hls : atLineStart bef = true
  · rw [optionMatchAt.eq_def, if_pos hls]
    split
    · rename_i heq
      exfalso
      rw [List.cons.injEq] at heq
      exact h1 heq.1
    · exact optionCore_no_ws cs h2
  · exact optionMatchAt_not_ls (by simpa using hls)

theorem optionFindAllF_ok :
    ∀ (fuel : Nat) (bef s : List Char), linesOk s = true →
      (atLineStart bef = false ∨ headOkb s = true) → optionFindAllF fuel bef s = [] := by
  intro fuel
  induction fuel with
  | zero => intro bef s _ _; rfl
  | succ n ih =>
    intro bef s hlines hstart
    cases s with
    | nil => rfl
    | cons c cs =>
      have hlines' : linesOk cs = true := by
        simp only [linesOk, Bool.and_eq_true] at hlines
        exact hlines.2
      have hnone : optionMatchAt bef (c :: cs) = none := by
        rcases hstart with hls | hok
        · exact optionMatchAt_not_ls hls
        · have hok' : (decide (c ≠ '.') && !pyIsSpace c) = true := by
            simpa [headOkb] using hok
          simp only [Bool.and_eq_true, decide_eq_true_eq, Bool.not_eq_true'] at hok'
          exact optionMatchAt_headOk cs hok'.1 hok'.2
      simp only [optionFindAllF, hnone]
      apply ih (c :: bef) cs hlines'
      by_cases hc : c = '\n'
      · subst hc
        right
        simp only [linesOk, Bool.and_eq_true, Bool.or_eq_true] at hlines
        rcases hlines.1 with hne | hok
        · simp at hne
        · exact hok
      · left
        simp [atLineStart, hc]

theorem optionFindAll_ok {s : List Char} (h1 : linesOk s = true) (h2 : headOkb s = true) :
    optionFindAll s = [] :=
  optionFindAllF_ok s.length [] s h1 (Or.inr h2)

theorem optionPass_ok {s : List Char} (h1 : linesOk s = true) (h2 : headOkb s = true) :
    optionPass s = s := by
  simp [optionPass, optionFindAll_ok h1 h2]

theorem linesOk_append_no_nl {a b : List Char} (h : ∀ c ∈ a, c ≠ '\n') :
    linesOk (a ++ b) = linesOk b := by
  induction a with
  | nil => rfl
  | cons c cs ih =>
    have hc : (c != '\n') = true := by
      simp [h c (by simp)]
    simp only [List.cons_append, linesOk, hc, Bool.true_or, Bool.true_and]
    exact ih (fun d hd => h d (by simp [hd]))

theorem linesOk_no_nl {l : List Char} (h : ∀ c ∈ l, c ≠ '\n') : linesOk l = true := by
  calc linesOk l = linesOk (l ++ []) := by rw [List.append_nil]
    _ = linesOk [] := linesOk_append_no_nl h
    _ = true := rfl

/-! ## The spec-side title pattern agrees with the anchored matcher -/

theorem any_ne_nl_of_mem {l : List Char} {x : Char} (hx : x ∈ l) (hne : x ≠ '\n') :
    l.any (· != '\n') = true := by
  rw [List.any_eq_true]
  exact ⟨x, hx, by simpa using hne⟩

theorem mem_drop_one {l : List Char} {x : Char} (h : x ∈ l.drop 1) : x ∈ l := by
  cases l with
  | nil => simp at h
  | cons a t =>
    simp only [List.drop_succ_cons, List.drop_zero] at h
    exact List.mem_cons_of_mem _ h

theorem hasNlThenText_weaken {l : List Char} (h : hasNlThenText l = true) :
    ∃ x ∈ l, x ≠ '\n' := by
  rw [hasNlThenText, List.any_eq_true] at h
  obtain ⟨x, hx1, hx2⟩ := h
  exact ⟨x, mem_dropWhile (mem_drop_one hx1), by simpa using hx2⟩

theorem hasNlThenText_cons_nl {rest3 : List Char} {x : Char} (hx : x ∈ rest3)
    (hne : x ≠ '\n') : hasNlThenText ('\n' :: rest3) = true := by
  simp only [hasNlThenText, List.dropWhile_cons, bne_self_eq_false, Bool.false_eq_true,
    if_false, List.drop_succ_cons, List.drop_zero]
  exact any_ne_nl_of_mem hx hne

theorem titleHeadingAt_build {w : Char} (hw : pyIsSpace w = true) {rest : List Char}
    (h : hasNlThenText rest = true) :
    titleHeadingAt ('=' :: '=' :: w :: 'r' :: 'h' :: 'o' :: 'a' :: 's' :: rest) = true := by
  simp [titleHeadingAt, hw, h]

theorem titleTail_hasNl {ext rest : List Char} {g : List Char × List Char × List Char}
    (h : titleTail ext rest = some g) : hasNlThenText rest = true := by
  simp only [titleTail] at h
  split at h
  · rename_i t heq
    split at h
    · exact absurd h (by simp)
    · rename_i x xs heq2
      have hx : (x == '\n') = false := dropWhile_head_false (p := (· == '\n')) heq2
      have hxne : x ≠ '\n' := by simpa using hx
      have hxmem : x ∈ (rest.dropWhile (· != '\n')).dropWhile (· == '\n') := by
        rw [heq2]
        simp
      have hxmem2 : x ∈ rest.dropWhile (· != '\n') := mem_dropWhile hxmem
      rw [heq] at hxmem2
      have hxmem3 : x ∈ t := by
        rcases List.mem_cons.mp hxmem2 with h' | h'
        · exact absurd h' hxne
        · exact h'
      rw [hasNlThenText, heq]
      simp only [List.drop_succ_cons, List.drop_zero]
      exact any_ne_nl_of_mem hxmem3 hxne
  · exact absurd h (by simp)

theorem titleMatch_spec {c : List Char} {g : List Char × List Char × List Char}
    (h : titleMatch c = some g) : titleHeadingAt c = true := by
  rw [titleMatch.eq_def] at h
  split at h
  · rename_i w rest
    by_cases hw : pyIsSpace w = true
    · rw [if_pos hw] at h
      split at h
      · rename_i rest2
        try simp only [] at h
        split at h
        · rename_i rest3
          -- the tail after the product word starts with a newline
          split at h
          · rename_i tg heq
            obtain ⟨x, hx1, hx2⟩ := hasNlThenText_weaken (titleTail_hasNl heq)
            exact titleHeadingAt_build hw (hasNlThenText_cons_nl hx1 hx2)
          · try simp only [] at h
            split at h
            · exact absurd h (by simp)
            · rename_i x xs heq2
              simp only [List.dropWhile_cons] at heq2
              rw [if_pos (by simp)] at heq2
              have hxne : x ≠ '\n' := by
                simpa using dropWhile_head_false (p := (· == '\n')) heq2
              have hxmem : x ∈ rest3.dropWhile (· == '\n') := by
                rw [heq2]
                simp
              exact titleHeadingAt_build hw
                (hasNlThenText_cons_nl (mem_dropWhile hxmem) hxne)
        · split at h
          · rename_i tg heq
            exact titleHeadingAt_build hw (titleTail_hasNl heq)
          · exact absurd h (by simp)
      · exact absurd h (by simp)
    · rw [if_neg hw] at h
      exact absurd h (by simp)
  · exact absurd h (by simp)

/-! ## Character class facts -/

theorem wordChar_ne {c : Char} (h : isWordChar c = true) :
    c ≠ '=' ∧ c ≠ '\n' ∧ c ≠ '*' ∧ c ≠ ']' := by
  refine ⟨?_, ?_, ?_, ?_⟩ <;> intro heq <;> subst heq <;> exact absurd h (by decide)

theorem lowerAZ_ne {c : Char} (h : isLowerAZ c = true) :
    c ≠ '=' ∧ c ≠ '\n' ∧ c ≠ '*' ∧ c ≠ ']' := by
  refine ⟨?_, ?_, ?_, ?_⟩ <;> intro heq <;> subst heq <;> exact absurd h (by decide)

theorem underscoreHyphen_ne {c X : Char} (hX1 : X ≠ '_') (h : c ≠ X) :
    underscoreHyphen c ≠ X := by
  unfold underscoreHyphen
  split
  · exact fun heq => hX1 heq.symm
  · exact h

/-! ## Scanners on contents whose single match spans everything -/

theorem headingFindAllF_nil (fuel : Nat) : headingFindAllF fuel [] = [] := by
  cases fuel <;> rfl

theorem linkFindAllF_nil (fuel : Nat) : linkFindAllF fuel [] = [] := by
  cases fuel <;> rfl

theorem optionFindAllF_nil (fuel : Nat) (bef : List Char) :
    optionFindAllF fuel bef [] = [] := by
  cases fuel <;> rfl

theorem headingFindAllF_single {s : List Char} {g : List Char × List Char} (fuel : Nat)
    (hm : headingMatchAt s = some (g, [])) (hs : s ≠ []) (hfuel : 1 ≤ fuel) :
    headingFindAllF fuel s = [g] := by
  cases fuel with
  | zero => omega
  | succ n =>
    cases s with
    | nil => exact absurd rfl hs
    | cons c cs => simp [optionFindAllF, headingFindAllF, hm, headingFindAllF_nil]

theorem linkFindAllF_single {s : List Char}
    {g : List Char × List Char × List Char × List Char × List Char} (fuel : Nat)
    (hm : linkMatchAt s = some (g, [])) (hs : s ≠ []) (hfuel : 1 ≤ fuel) :
    linkFindAllF fuel s = [g] := by
  cases fuel with
  | zero => omega
  | succ n =>
    cases s with
    | nil => exact absurd rfl hs
    | cons c cs => simp [linkFindAllF, hm, linkFindAllF_nil]

theorem optionFindAllF_single {bef s : List Char} {m : OptMatch} (fuel : Nat)
    (hm : optionMatchAt bef s = some (m, [])) (hs : s ≠ []) (hfuel : 1 ≤ fuel) :
    optionFindAllF fuel bef s = [m] := by
  cases fuel with
  | zero => omega
  | succ n =>
    cases s with
    | nil => exact absurd rfl hs
    | cons c cs => simp [optionFindAllF, hm, optionFindAllF_nil]

/-! ## The heading pass on a lone heading line -/

theorem headingMatchAt_canonical {n : Nat} (hn : 3 ≤ n) {text : List Char}
    (htext : text ≠ []) (hnl : ∀ c ∈ text, c ≠ '\n') :
    headingMatchAt (List.replicate n '=' ++ ' ' :: text) =
      some ((List.replicate n '=' ++ [' '], text), []) := by
  have hall : ∀ c ∈ List.replicate n '=', (c == '=') = true := by
    intro c hc
    simp [List.eq_of_mem_replicate hc]
  have hsp : ((' ' : Char) == '=') = false := by decide
  have e1 : (List.replicate n '=' ++ ' ' :: text).takeWhile (· == '=') =
      List.replicate n '=' := takeWhile_middle hall hsp text
  have e2 : (List.replicate n '=' ++ ' ' :: text).dropWhile (· == '=') = ' ' :: text :=
    dropWhile_middle hall hsp text
  have e3 : text.takeWhile (· != '\n') = text :=
    takeWhile_all (fun c hc => by simp [hnl c hc])
  have e4 : text.dropWhile (· != '\n') = [] :=
    dropWhile_all (fun c hc => by simp [hnl c hc])
  obtain ⟨t0, ts, rfl⟩ : ∃ t0 ts, text = t0 :: ts := by
    cases text with
    | nil => exact absurd rfl htext
    | cons a b => exact ⟨a, b, rfl⟩
  rw [headingMatchAt.eq_def]
  simp only [e1, e2, e3, e4, List.length_replicate]
  rw [if_pos (by omega)]
  rw [if_pos (by decide : pyIsSpace ' ' = true)]

theorem headingPass_canonical {n : Nat} (hn : 3 ≤ n) {text : List Char}
    (htext : text ≠ []) (hnl : ∀ c ∈ text, c ≠ '\n') :
    headingPass (List.replicate n '=' ++ ' ' :: text) =
      "[discrete]\n".data ++ List.replicate (n - 1) '=' ++ ' ' :: pyCapitalize text := by
  have hne : List.replicate n '=' ++ ' ' :: text ≠ [] := by simp
  have hfind : headingFindAll (List.replicate n '=' ++ ' ' :: text) =
      [(List.replicate n '=' ++ [' '], text)] := by
    rw [headingFindAll]
    exact headingFindAllF_single _ (headingMatchAt_canonical hn htext hnl) hne
      (by simp [List.length_append]; omega)
  rw [headingPass, hfind]
  simp only [List.foldl_cons, List.foldl_nil]
  have hjoin : (List.replicate n '=' ++ [' ']) ++ text =
      List.replicate n '=' ++ ' ' :: text := by simp
  rw [hjoin, replaceAll_self hne]
  obtain ⟨m, rfl⟩ : ∃ m, n = m + 3 := ⟨n - 3, by omega⟩
  have hdrop : (List.replicate (m + 3) '=' ++ [' ']).drop 1 =
      List.replicate (m + 3 - 1) '=' ++ [' '] := by
    rw [List.replicate_succ]
    simp [List.replicate]
  rw [hdrop]
  simp

theorem titleMatch_replicate3 {m : Nat} (rest : List Char) :
    titleMatch (List.replicate (m + 3) '=' ++ rest) = none := by
  have h : List.replicate (m + 3) '=' ++ rest
      = '=' :: '=' :: '=' :: (List.replicate m '=' ++ rest) := by
    simp [List.replicate_succ]
  rw [h]
  exact titleMatch_eq3 _

theorem headOkb_discrete (R : List Char) :
    headOkb ("[discrete]\n".data ++ R) = true := by
  have h : "[discrete]\n".data = '[' :: "discrete]\n".data := by decide
  rw [h, List.cons_append]
  rw [show ∀ (c : Char) (l : List Char),
        headOkb (c :: l) = (decide (c ≠ '.') && !pyIsSpace c) from fun _ _ => rfl]
  decide

theorem linesOk_discrete_block {R : List Char} (hhead : headOkb R = true)
    (hnl : ∀ c ∈ R, c ≠ '\n') :
    linesOk ("[discrete]\n".data ++ R) = true := by
  have hsplit : "[discrete]\n".data ++ R = "[discrete]".data ++ ('\n' :: R) := by
    have h : "[discrete]\n".data = "[discrete]".data ++ ['\n'] := by decide
    rw [h, List.append_assoc]
    rfl
  rw [hsplit, linesOk_append_no_nl (by decide)]
  simp [linesOk, hhead, linesOk_no_nl hnl]

theorem format_heading_canonical {n : Nat} (hn : 3 ≤ n) {text : List Char}
    (htext : text ≠ []) (hsafe : ∀ c ∈ text, c ≠ '\n' ∧ c ≠ '*') :
    format_command_file (List.replicate n '=' ++ ' ' :: text) =
      "[discrete]\n".data ++ List.replicate (n - 1) '=' ++ ' ' :: pyCapitalize text := by
  have hnl : ∀ c ∈ text, c ≠ '\n' := fun c hc => (hsafe c hc).1
  have hst : ∀ c ∈ text, c ≠ '*' := fun c hc => (hsafe c hc).2
  have hcap_star : ∀ c ∈ pyCapitalize text, c ≠ '*' :=
    pyCapitalize_ne (by decide) (by decide) hst
  have hcap_nl : ∀ c ∈ pyCapitalize text, c ≠ '\n' :=
    pyCapitalize_ne (by decide) (by decide) hnl
  rw [format_command_file]
  obtain ⟨m, rfl⟩ : ∃ m, n = m + 3 := ⟨n - 3, by omega⟩
  rw [titlePass_of_none (titleMatch_replicate3 _)]
  rw [headingPass_canonical hn htext hnl]
  have hm2 : m + 3 - 1 = m + 2 := rfl
  rw [hm2]
  have hstar : ∀ c ∈ "[discrete]\n".data ++
      (List.replicate (m + 2) '=' ++ ' ' :: pyCapitalize text), c ≠ '*' := by
    intro c hc
    rcases List.mem_append.mp hc with hc | hc
    · exact (by decide : ∀ c ∈ "[discrete]\n".data, c ≠ '*') c hc
    · rcases List.mem_append.mp hc with hc | hc
      · rw [List.eq_of_mem_replicate hc]
        decide
      · rcases List.mem_cons.mp hc with hc | hc
        · subst hc; decide
        · exact hcap_star c hc
  have hassoc : "[discrete]\n".data ++ List.replicate (m + 2) '=' ++ ' ' :: pyCapitalize text
      = "[discrete]\n".data ++ (List.replicate (m + 2) '=' ++ ' ' :: pyCapitalize text) := by
    rw [List.append_assoc]
  rw [hassoc, linkPass_no_star hstar]
  have hR_nl : ∀ c ∈ List.replicate (m + 2) '=' ++ ' ' :: pyCapitalize text, c ≠ '\n' := by
    intro c hc
    rcases List.mem_append.mp hc with hc | hc
    · rw [List.eq_of_mem_replicate hc]
      decide
    · rcases List.mem_cons.mp hc with hc | hc
      · subst hc; decide
      · exact hcap_nl c hc
  have hR_head : headOkb (List.replicate (m + 2) '=' ++ ' ' :: pyCapitalize text) = true := by
    rw [List.replicate_succ, List.cons_append]
    rw [show ∀ (c : Char) (l : List Char),
          headOkb (c :: l) = (decide (c ≠ '.') && !pyIsSpace c) from fun _ _ => rfl]
    decide
  rw [optionPass_ok (linesOk_discrete_block hR_head hR_nl) (headOkb_discrete _)]

/-! ## The link pass on a lone bullet link line -/

theorem bracketSplit_canonical {text desc : List Char} (htext : text ≠ [])
    (hdesc : desc ≠ []) (hd : ∀ c ∈ desc, c ≠ ']') :
    bracketSplit (text ++ ']' :: desc) = some (text, desc) := by
  obtain ⟨d0, drest, hd0⟩ : ∃ d0 drest, desc.reverse = d0 :: drest := by
    cases hr : desc.reverse with
    | nil => exact absurd (by simpa using congrArg List.reverse hr) hdesc
    | cons a b => exact ⟨a, b, rfl⟩
  have hrev : (text ++ ']' :: desc).reverse = d0 :: (drest ++ ']' :: text.reverse) := by
    rw [List.reverse_append, List.reverse_cons, hd0]
    simp
  have hdrest : ∀ c ∈ drest, (c != ']') = true := by
    intro c hc
    have : c ∈ desc.reverse := by rw [hd0]; simp [hc]
    simp [hd c (List.mem_reverse.mp this)]
  have hbr : ((']' : Char) != ']') = false := by decide
  rw [bracketSplit, hrev]
  simp only [dropWhile_middle hdrest hbr, takeWhile_middle hdrest hbr]
  obtain ⟨t0, trest, ht0⟩ : ∃ t0 trest, text.reverse = t0 :: trest := by
    cases hr : text.reverse with
    | nil => exact absurd (by simpa using congrArg List.reverse hr) htext
    | cons a b => exact ⟨a, b, rfl⟩
  rw [ht0]
  have h1 : (t0 :: trest).reverse = text := by rw [← ht0, List.reverse_reverse]
  have h2 : drest.reverse ++ [d0] = desc := by
    have h3 : drest.reverse ++ [d0] = (d0 :: drest).reverse := by simp
    rw [h3, ← hd0, List.reverse_reverse]
  rw [h1, h2]

theorem linkMatchAt_canonical {anchor sfx text desc : List Char}
    (ha : anchor ≠ []) (haw : ∀ c ∈ anchor, (isWordChar c || c = '-') = true)
    (hs : sfx ≠ []) (hsw : ∀ c ∈ sfx, isWordChar c = true)
    (htext : text ≠ []) (htw : ∀ c ∈ text, c ≠ '\n')
    (hdesc : desc ≠ []) (hdw : ∀ c ∈ desc, c ≠ ']' ∧ c ≠ '\n') :
    linkMatchAt ("* link:".data ++ (anchor ++ '\x7b' :: (sfx ++ '\x7d' :: '[' ::
        (text ++ ']' :: desc)))) =
      some (("* link:".data, anchor, '\x7b' :: (sfx ++ ['\x7d']),
             '[' :: (text ++ [']']), desc), []) := by
  have hshape : "* link:".data ++ (anchor ++ '\x7b' :: (sfx ++ '\x7d' :: '[' ::
      (text ++ ']' :: desc)))
      = '*' :: ' ' :: 'l' :: 'i' :: 'n' :: 'k' :: ':' ::
        (anchor ++ '\x7b' :: (sfx ++ '\x7d' :: '[' :: (text ++ ']' :: desc))) := by
    have h0 : "* link:".data = ['*', ' ', 'l', 'i', 'n', 'k', ':'] := by decide
    rw [h0]
    simp
  rw [hshape, linkMatchAt]
  have hbrace : (isWordChar '\x7b' || '\x7b' = '-') = false := by decide
  have e1 : (anchor ++ '\x7b' :: (sfx ++ '\x7d' :: '[' :: (text ++ ']' :: desc))).takeWhile
      (fun c => isWordChar c || c = '-') = anchor := takeWhile_middle haw hbrace _
  have e2 : (anchor ++ '\x7b' :: (sfx ++ '\x7d' :: '[' :: (text ++ ']' :: desc))).dropWhile
      (fun c => isWordChar c || c = '-') = '\x7b' :: (sfx ++ '\x7d' :: '[' ::
      (text ++ ']' :: desc)) := dropWhile_middle haw hbrace _
  rw [if_pos (by decide : pyIsSpace ' ' = true)]
  simp only [e1, e2]
  obtain ⟨a0, arest, rfl⟩ : ∃ a0 arest, anchor = a0 :: arest := by
    cases anchor with
    | nil => exact absurd rfl ha
    | cons a b => exact ⟨a, b, rfl⟩
  have hclose : isWordChar '\x7d' = false := by decide
  have e3 : (sfx ++ '\x7d' :: '[' :: (text ++ ']' :: desc)).takeWhile isWordChar = sfx :=
    takeWhile_middle hsw hclose _
  have e4 : (sfx ++ '\x7d' :: '[' :: (text ++ ']' :: desc)).dropWhile isWordChar =
      '\x7d' :: '[' :: (text ++ ']' :: desc) := dropWhile_middle hsw hclose _
  simp only [e3, e4]
  obtain ⟨s0, srest, rfl⟩ : ∃ s0 srest, sfx = s0 :: srest := by
    cases sfx with
    | nil => exact absurd rfl hs
    | cons a b => exact ⟨a, b, rfl⟩
  have e5 : (text ++ ']' :: desc).takeWhile (· != '\n') = text ++ ']' :: desc := by
    apply takeWhile_all
    intro c hc
    rcases List.mem_append.mp hc with hc | hc
    · simp [htw c hc]
    · rcases List.mem_cons.mp hc with hc | hc
      · subst hc; decide
      · simp [(hdw c hc).2]
  have e6 : (text ++ ']' :: desc).dropWhile (· != '\n') = [] := by
    apply dropWhile_all
    intro c hc
    rcases List.mem_append.mp hc with hc | hc
    · simp [htw c hc]
    · rcases List.mem_cons.mp hc with hc | hc
      · subst hc; decide
      · simp [(hdw c hc).2]
  simp only [e5, e6]
  rw [bracketSplit_canonical htext hdesc (fun c hc => (hdw c hc).1)]
  obtain ⟨d0, drest, rfl⟩ : ∃ d0 drest, desc = d0 :: drest := by
    cases desc with
    | nil => exact absurd rfl hdesc
    | cons a b => exact ⟨a, b, rfl⟩
  rfl

theorem anchorChar_ne {c : Char} (h : (isWordChar c || c = '-') = true) :
    c ≠ '\n' ∧ c ≠ '=' ∧ c ≠ '*' := by
  simp only [Bool.or_eq_true, decide_eq_true_eq] at h
  rcases h with h | h
  · obtain ⟨h1, h2, h3, _⟩ := wordChar_ne h
    exact ⟨h2, h1, h3⟩
  · subst h
    refine ⟨by decide, by decide, by decide⟩

theorem replaceAll_total {s pat rep out : List Char} (h1 : pat = s) (h2 : s ≠ [])
    (h3 : rep = out) : replaceAll s pat rep = out := by
  subst h1
  subst h3
  exact replaceAll_self h2 _

theorem linkPass_canonical {anchor sfx text desc : List Char}
    (ha : anchor ≠ []) (haw : ∀ c ∈ anchor, (isWordChar c || c = '-') = true)
    (hs : sfx ≠ []) (hsw : ∀ c ∈ sfx, isWordChar c = true)
    (htext : text ≠ []) (htw : ∀ c ∈ text, c ≠ '\n')
    (hdesc : desc ≠ []) (hdw : ∀ c ∈ desc, c ≠ ']' ∧ c ≠ '\n') :
    linkPass ("* link:".data ++ (anchor ++ '\x7b' :: (sfx ++ '\x7d' :: '[' ::
        (text ++ ']' :: desc)))) =
      "* xref:_".data ++ (anchor.map underscoreHyphen ++ '[' ::
        (text ++ ']' :: ' ' :: pyLstrip desc)) := by
  have h0 : "* link:".data = '*' :: " link:".data := by decide
  have hne : "* link:".data ++ (anchor ++ '\x7b' :: (sfx ++ '\x7d' :: '[' ::
      (text ++ ']' :: desc))) ≠ [] := by
    rw [h0, List.cons_append]
    simp
  have hlen : 1 ≤ ("* link:".data ++ (anchor ++ '\x7b' :: (sfx ++ '\x7d' :: '[' ::
      (text ++ ']' :: desc)))).length := by
    rw [h0, List.cons_append]
    simp
  have hfind := linkFindAllF_single _
    (linkMatchAt_canonical ha haw hs hsw htext htw hdesc hdw) hne hlen
  rw [linkPass, linkFindAll, hfind]
  simp only [List.foldl_cons, List.foldl_nil]
  exact replaceAll_total (by simp) hne (by rw [replaceAll_hyphen]; simp)

theorem format_link_canonical {anchor sfx text desc : List Char}
    (ha : anchor ≠ []) (haw : ∀ c ∈ anchor, (isWordChar c || c = '-') = true)
    (hs : sfx ≠ []) (hsw : ∀ c ∈ sfx, isWordChar c = true)
    (htext : text ≠ []) (htw : ∀ c ∈ text, c ≠ '\n' ∧ c ≠ '=')
    (hdesc : desc ≠ []) (hdw : ∀ c ∈ desc, c ≠ ']' ∧ c ≠ '\n' ∧ c ≠ '=') :
    format_command_file ("* link:".data ++ (anchor ++ '\x7b' :: (sfx ++ '\x7d' :: '[' ::
        (text ++ ']' :: desc)))) =
      "* xref:_".data ++ (anchor.map underscoreHyphen ++ '[' ::
        (text ++ ']' :: ' ' :: pyLstrip desc)) := by
  have h0 : "* link:".data = '*' :: " link:".data := by decide
  rw [format_command_file]
  have htitle : titleMatch ("* link:".data ++ (anchor ++ '\x7b' :: (sfx ++ '\x7d' :: '[' ::
      (text ++ ']' :: desc)))) = none := by
    rw [h0, List.cons_append]
    exact titleMatch_star _
  rw [titlePass_of_none htitle]
  have hnoeq : ∀ c ∈ "* link:".data ++ (anchor ++ '\x7b' :: (sfx ++ '\x7d' :: '[' ::
      (text ++ ']' :: desc))), c ≠ '=' := by
    intro c hc
    rcases List.mem_append.mp hc with hc | hc
    · exact (by decide : ∀ c ∈ "* link:".data, c ≠ '=') c hc
    rcases List.mem_append.mp hc with hc | hc
    · exact (anchorChar_ne (haw c hc)).2.1
    rcases List.mem_cons.mp hc with hc | hc
    · subst hc; decide
    rcases List.mem_append.mp hc with hc | hc
    · exact (wordChar_ne (hsw c hc)).1
    rcases List.mem_cons.mp hc with hc | hc
    · subst hc; decide
    rcases List.mem_cons.mp hc with hc | hc
    · subst hc; decide
    rcases List.mem_append.mp hc with hc | hc
    · exact (htw c hc).2
    rcases List.mem_cons.mp hc with hc | hc
    · subst hc; decide
    exact (hdw c hc).2.2
  rw [headingPass_no_eq hnoeq]
  rw [linkPass_canonical ha haw hs hsw htext (fun c hc => (htw c hc).1) hdesc
    (fun c hc => ⟨(hdw c hc).1, (hdw c hc).2.1⟩)]
  have hout_nl : ∀ c ∈ "* xref:_".data ++ (anchor.map underscoreHyphen ++ '[' ::
      (text ++ ']' :: ' ' :: pyLstrip desc)), c ≠ '\n' := by
    intro c hc
    rcases List.mem_append.mp hc with hc | hc
    · exact (by decide : ∀ c ∈ "* xref:_".data, c ≠ '\n') c hc
    rcases List.mem_append.mp hc with hc | hc
    · obtain ⟨d, hd, rfl⟩ := List.mem_map.mp hc
      exact underscoreHyphen_ne (by decide) (anchorChar_ne (haw d hd)).1
    rcases List.mem_cons.mp hc with hc | hc
    · subst hc; decide
    rcases List.mem_append.mp hc with hc | hc
    · exact (htw c hc).1
    rcases List.mem_cons.mp hc with hc | hc
    · subst hc; decide
    rcases List.mem_cons.mp hc with hc | hc
    · subst hc; decide
    exact (fun c' hc' => (hdw c' hc').2.1) c (mem_dropWhile hc)
  have hout_head : headOkb ("* xref:_".data ++ (anchor.map underscoreHyphen ++ '[' ::
      (text ++ ']' :: ' ' :: pyLstrip desc))) = true := by
    rw [show "* xref:_".data = '*' :: " xref:_".data from by decide, List.cons_append]
    rw [show ∀ (c : Char) (l : List Char),
          headOkb (c :: l) = (decide (c ≠ '.') && !pyIsSpace c) from fun _ _ => rfl]
    decide
  rw [optionPass_ok (linesOk_no_nl hout_nl) hout_head]

/-! ## The option pass on a lone short-and-long-flag option line -/

theorem altOne_canonical {x : Char} {flag rest2 : List Char}
    (hx : isWordChar x = true) (hf : flag ≠ [])
    (hfw : ∀ c ∈ flag, isLowerAZ c = true) :
    altOne ('-' :: x :: ',' :: ' ' :: '-' :: '-' :: (flag ++ ' ' :: rest2))
      = some ('-' :: x :: ',' :: ' ' :: '-' :: '-' :: flag, ' ' :: rest2) := by
  have hsp : isLowerAZ ' ' = false := by decide
  have e1 : (flag ++ ' ' :: rest2).takeWhile isLowerAZ = flag :=
    takeWhile_middle hfw hsp rest2
  have e2 : (flag ++ ' ' :: rest2).dropWhile isLowerAZ = ' ' :: rest2 :=
    dropWhile_middle hfw hsp rest2
  rw [altOne.eq_def]
  simp only [hx, (by decide : pyIsSpace ' ' = true), Bool.and_self, if_true, e1, e2]

theorem optG2G3_canonical {x : Char} {flag rest2 : List Char}
    (hx : isWordChar x = true) (hf : flag ≠ [])
    (hfw : ∀ c ∈ flag, isLowerAZ c = true) :
    optG2G3 [] (' ' :: ' ' :: '-' :: x :: ',' :: ' ' :: '-' :: '-' :: (flag ++ ' ' :: rest2)) 2
      = some ([' ', ' '], '-' :: x :: ',' :: ' ' :: '-' :: '-' :: flag, ' ' :: rest2) := by
  show optG2G3 [] _ (1 + 1) = _
  rw [optG2G3]
  rw [if_pos (by omega)]
  have hdrop : (' ' :: ' ' :: '-' :: x :: ',' :: ' ' :: '-' :: '-' ::
      (flag ++ ' ' :: rest2)).drop (1 + 1) = '-' :: x :: ',' :: ' ' :: '-' :: '-' ::
      (flag ++ ' ' :: rest2) := rfl
  have htake : (' ' :: ' ' :: '-' :: x :: ',' :: ' ' :: '-' :: '-' ::
      (flag ++ ' ' :: rest2)).take (1 + 1) = [' ', ' '] := rfl
  rw [hdrop, htake]
  rw [optGroup3, altOne_canonical hx hf hfw]

theorem optTail_canonical {desc : List Char} (hdnl : ∀ c ∈ desc, c ≠ '\n') :
    optTail (' ' :: ' ' :: desc) = (([], ' ' :: ' ' :: desc, []), []) := by
  have e5 : (' ' :: ' ' :: desc).takeWhile (· != '\n') = ' ' :: ' ' :: desc := by
    apply takeWhile_all
    intro c hc
    rcases List.mem_cons.mp hc with hc | hc
    · subst hc; decide
    rcases List.mem_cons.mp hc with hc | hc
    · subst hc; decide
    simp [hdnl c hc]
  have e6 : (' ' :: ' ' :: desc).dropWhile (· != '\n') = [] := by
    apply dropWhile_all
    intro c hc
    rcases List.mem_cons.mp hc with hc | hc
    · subst hc; decide
    rcases List.mem_cons.mp hc with hc | hc
    · subst hc; decide
    simp [hdnl c hc]
  rw [optTail]
  simp only [e5, e6, (by decide : pyIsSpace ' ' = true), if_true, List.takeWhile_cons,
    (by decide : isWordChar ' ' = false), Bool.false_eq_true, if_false]

theorem optionMatchAt_canonical {x : Char} {flag desc : List Char}
    (hx : isWordChar x = true) (hf : flag ≠ [])
    (hfw : ∀ c ∈ flag, isLowerAZ c = true)
    (hdnl : ∀ c ∈ desc, c ≠ '\n') :
    optionMatchAt [] (' ' :: ' ' :: '-' :: x :: ',' :: ' ' :: '-' :: '-' ::
        (flag ++ ' ' :: ' ' :: desc)) =
      some (⟨[], [' ', ' '], '-' :: x :: ',' :: ' ' :: '-' :: '-' :: flag,
             [], ' ' :: ' ' :: desc, []⟩, []) := by
  have hA : optionMatchAt [] (' ' :: ' ' :: '-' :: x :: ',' :: ' ' :: '-' :: '-' ::
      (flag ++ ' ' :: ' ' :: desc)) = optionCore [] []
      (' ' :: ' ' :: '-' :: x :: ',' :: ' ' :: '-' :: '-' ::
        (flag ++ ' ' :: ' ' :: desc)) := rfl
  rw [hA, optionCore]
  have hws : ((' ' :: ' ' :: '-' :: x :: ',' :: ' ' :: '-' :: '-' ::
      (flag ++ ' ' :: ' ' :: desc)).takeWhile pyIsSpace).length = 2 := rfl
  rw [hws, optG2G3_canonical hx hf hfw]
  show some ((⟨[], [' ', ' '], '-' :: x :: ',' :: ' ' :: '-' :: '-' :: flag,
      (optTail (' ' :: ' ' :: desc)).1.1, (optTail (' ' :: ' ' :: desc)).1.2.1,
      (optTail (' ' :: ' ' :: desc)).1.2.2⟩ : OptMatch), (optTail (' ' :: ' ' :: desc)).2)
    = some (⟨[], [' ', ' '], '-' :: x :: ',' :: ' ' :: '-' :: '-' :: flag,
             [], ' ' :: ' ' :: desc, []⟩, [])
  rw [optTail_canonical hdnl]

theorem optionPass_canonical {x : Char} {flag desc : List Char}
    (hx : isWordChar x = true) (hf : flag ≠ [])
    (hfw : ∀ c ∈ flag, isLowerAZ c = true)
    (hdnl : ∀ c ∈ desc, c ≠ '\n') :
    optionPass (' ' :: ' ' :: '-' :: x :: ',' :: ' ' :: '-' :: '-' ::
        (flag ++ ' ' :: ' ' :: desc)) =
      '`' :: ('-' :: x :: ',' :: ' ' :: '-' :: '-' :: flag ++ "`::\n".data
        ++ pyStrip desc) := by
  have hne : (' ' :: ' ' :: '-' :: x :: ',' :: ' ' :: '-' :: '-' ::
      (flag ++ ' ' :: ' ' :: desc)) ≠ ([] : List Char) := by simp
  have hfind : optionFindAll (' ' :: ' ' :: '-' :: x :: ',' :: ' ' :: '-' :: '-' ::
      (flag ++ ' ' :: ' ' :: desc)) = [⟨[], [' ', ' '],
      '-' :: x :: ',' :: ' ' :: '-' :: '-' :: flag, [], ' ' :: ' ' :: desc, []⟩] := by
    rw [optionFindAll]
    exact optionFindAllF_single _ (optionMatchAt_canonical hx hf hfw hdnl) hne
      (by simp)
  rw [optionPass, hfind]
  simp only [List.foldl_cons, List.foldl_nil]
  have hrep : opReplacement ⟨[], [' ', ' '], '-' :: x :: ',' :: ' ' :: '-' :: '-' :: flag,
      [], ' ' :: ' ' :: desc, []⟩ = '`' :: ('-' :: x :: ',' :: ' ' :: '-' :: '-' :: flag
        ++ "`::\n".data ++ pyStrip desc) := by
    simp only [opReplacement, pyStrip_sp]
    simp
  exact replaceAll_total (by simp [OptMatch.joined]) hne hrep

theorem format_option_canonical {x : Char} {flag desc : List Char}
    (hx : isWordChar x = true) (hf : flag ≠ [])
    (hfw : ∀ c ∈ flag, isLowerAZ c = true)
    (hd : ∀ c ∈ desc, c ≠ '\n' ∧ c ≠ '=' ∧ c ≠ '*') :
    format_command_file (' ' :: ' ' :: '-' :: x :: ',' :: ' ' :: '-' :: '-' ::
        (flag ++ ' ' :: ' ' :: desc)) =
      '`' :: ('-' :: x :: ',' :: ' ' :: '-' :: '-' :: flag ++ "`::\n".data
        ++ pyStrip desc) := by
  rw [format_command_file, titlePass_of_none (titleMatch_sp _)]
  have hmem : ∀ c ∈ ' ' :: ' ' :: '-' :: x :: ',' :: ' ' :: '-' :: '-' ::
      (flag ++ ' ' :: ' ' :: desc), c ≠ '=' ∧ c ≠ '*' := by
    intro c hc
    rcases List.mem_cons.mp hc with hc | hc
    · subst hc; exact ⟨by decide, by decide⟩
    rcases List.mem_cons.mp hc with hc | hc
    · subst hc; exact ⟨by decide, by decide⟩
    rcases List.mem_cons.mp hc with hc | hc
    · subst hc; exact ⟨by decide, by decide⟩
    rcases List.mem_cons.mp hc with hc | hc
    · subst hc
      obtain ⟨h1, _, h3, _⟩ := wordChar_ne hx
      exact ⟨h1, h3⟩
    rcases List.mem_cons.mp hc with hc | hc
    · subst hc; exact ⟨by decide, by decide⟩
    rcases List.mem_cons.mp hc with hc | hc
    · subst hc; exact ⟨by decide, by decide⟩
    rcases List.mem_cons.mp hc with hc | hc
    · subst hc; exact ⟨by decide, by decide⟩
    rcases List.mem_cons.mp hc with hc | hc
    · subst hc; exact ⟨by decide, by decide⟩
    rcases List.mem_append.mp hc with hc | hc
    · obtain ⟨h1, _, h3, _⟩ := lowerAZ_ne (hfw c hc)
      exact ⟨h1, h3⟩
    rcases List.mem_cons.mp hc with hc | hc
    · subst hc; exact ⟨by decide, by decide⟩
    rcases List.mem_cons.mp hc with hc | hc
    · subst hc; exact ⟨by decide, by decide⟩
    exact ⟨(hd c hc).2.1, (hd c hc).2.2⟩
  rw [headingPass_no_eq (fun c hc => (hmem c hc).1)]
  rw [linkPass_no_star (fun c hc => (hmem c hc).2)]
  exact optionPass_canonical hx hf hfw (fun c hc => (hd c hc).1)

/-! ## The lexicographic order used by the assembly generator -/

theorem pyStrLe_total : ∀ a b : List Char, pyStrLe a b = true ∨ pyStrLe b a = true := by
  intro a
  induction a with
  | nil => intro b; left; rfl
  | cons x xs ih =>
    intro b
    cases b with
    | nil => right; rfl
    | cons y ys =>
      rcases lt_trichotomy x y with h | h | h
      · left
        rw [pyStrLe, if_pos h]
      · subst h
        rcases ih ys with h2 | h2
        · left
          rw [pyStrLe, if_neg (lt_irrefl x), if_pos rfl]
          exact h2
        · right
          rw [pyStrLe, if_neg (lt_irrefl x), if_pos rfl]
          exact h2
      · right
        rw [pyStrLe, if_pos h]

theorem pyStrLe_trans : ∀ a b c : List Char,
    pyStrLe a b = true → pyStrLe b c = true → pyStrLe a c = true := by
  intro a
  induction a with
  | nil => intro b c _ _; rfl
  | cons x xs ih =>
    intro b c hab hbc
    cases b with
    | nil => rw [pyStrLe] at hab; exact absurd hab (by simp)
    | cons y ys =>
      cases c with
      | nil => rw [pyStrLe] at hbc; exact absurd hbc (by simp)
      | cons z zs =>
        rw [pyStrLe] at hab hbc ⊢
        by_cases h1 : x < y
        · by_cases h2 : y < z
          · rw [if_pos (lt_trans h1 h2)]
          · rw [if_neg h2] at hbc
            by_cases h3 : y = z
            · subst h3
              rw [if_pos h1]
            · rw [if_neg h3] at hbc
              exact absurd hbc (by simp)
        · rw [if_neg h1] at hab
          by_cases h4 : x = y
          · subst h4
            rw [if_pos rfl] at hab
            by_cases h2 : x < z
            · rw [if_pos h2]
            · rw [if_neg h2] at hbc ⊢
              by_cases h3 : x = z
              · rw [if_pos h3] at hbc ⊢
                subst h3
                exact ih ys zs hab hbc
              · rw [if_neg h3] at hbc
                exact absurd hbc (by simp)
          · rw [if_neg h4] at hab
            exact absurd hab (by simp)

theorem pyStrLe_antisymm : ∀ a b : List Char,
    pyStrLe a b = true → pyStrLe b a = true → a = b := by
  intro a
  induction a with
  | nil =>
    intro b _ hba
    cases b with
    | nil => rfl
    | cons y ys => rw [pyStrLe] at hba; exact absurd hba (by simp)
  | cons x xs ih =>
    intro b hab hba
    cases b with
    | nil => rw [pyStrLe] at hab; exact absurd hab (by simp)
    | cons y ys =>
      rw [pyStrLe] at hab hba
      by_cases h1 : x < y
      · rw [if_neg (lt_asymm h1), if_neg (ne_of_gt h1)] at hba
        exact absurd hba (by simp)
      · rw [if_neg h1] at hab
        by_cases h2 : x = y
        · subst h2
          rw [if_pos rfl] at hab
          rw [if_neg h1, if_pos rfl] at hba
          rw [ih ys hab hba]
        · rw [if_neg h2] at hab
          exact absurd hab (by simp)

instance : IsTotal (List Char) pyLeR := ⟨fun a b => pyStrLe_total a b⟩

instance : IsTrans (List Char) pyLeR := ⟨fun a b c => pyStrLe_trans a b c⟩

instance : IsAntisymm (List Char) pyLeR := ⟨fun a b => pyStrLe_antisymm a b⟩

theorem pySorted_filter_comm (p : List Char → Bool) (names : List (List Char)) :
    (pySorted names).filter p = pySorted (names.filter p) := by
  apply List.eq_of_perm_of_sorted (r := pyLeR)
  · exact ((List.perm_insertionSort pyLeR names).filter p).trans
      ((List.perm_insertionSort pyLeR (names.filter p)).symm)
  · exact (List.sorted_insertionSort pyLeR names).filter p
  · exact List.sorted_insertionSort pyLeR _

theorem assemblyModules_mem (names : List (List Char)) (n : List Char) :
    n ∈ assemblyModules names ↔ n ∈ names ∧ pySuffix n = ".adoc".data := by
  rw [assemblyModules, List.mem_filter]
  constructor
  · rintro ⟨h1, h2⟩
    exact ⟨(List.perm_insertionSort pyLeR names).subset h1, of_decide_eq_true h2⟩
  · rintro ⟨h1, h2⟩
    exact ⟨((List.perm_insertionSort pyLeR names).mem_iff).mpr h1, decide_eq_true h2⟩

theorem formatter_targets_mem (names : List (List Char)) (n : List Char) :
    n ∈ formatter_targets names ↔
      n ∈ names ∧ begins (pyStem n) "ref-cli".data = true ∧
        pySuffix n = ".adoc".data := by
  rw [formatter_targets, List.mem_filter]
  constructor
  · rintro ⟨h1, h2⟩
    rw [Bool.and_eq_true] at h2
    exact ⟨h1, h2.1, of_decide_eq_true h2.2⟩
  · rintro ⟨h1, h2, h3⟩
    refine ⟨h1, ?_⟩
    rw [Bool.and_eq_true]
    exact ⟨h2, decide_eq_true h3⟩

theorem hasSub_replaceAll {s pat rep sub : List Char} (hne : pat ≠ [])
    (hb : begins rep sub = true) (hs : hasSub s pat = true) :
    hasSub (replaceAll s pat rep) sub = true := by
  simp only [replaceAll, if_neg hne]
  exact hasSub_replaceAllF hne hb _ s (Nat.le_refl _) hs

/-! ## The claims -/

set_option maxRecDepth 4000

/-- C1, counterexample: on the bullet link line for the anchor my-anchor with
the relfilesuffix macro, the formatter emits the xref bullet without the
suffix macro, so the output differs from the bullet the claim predicts, which
retains the suffix macro after the underscored anchor. -/
theorem claim_C1_counterexample :
    format_command_file "* link:my-anchor\x7brelfilesuffix\x7d[rhoas kafka] - Overview".data
      = "* xref:_my_anchor[rhoas kafka] - Overview".data ∧
    "* xref:_my_anchor[rhoas kafka] - Overview".data ≠
      "* xref:_my_anchor\x7brelfilesuffix\x7d[rhoas kafka] - Overview".data := by
  constructor
  · decide
  · decide

/-- C1, amended: for every command reference file consisting of a single
bullet-list line of the form star, space, the link macro, an anchor id of
word characters and hyphens, a brace-delimited suffix macro, a bracketed
link text and a trailing description, the formatter rewrites the file to
the cross-reference bullet made of star, space, the xref macro, an
underscore, the anchor with hyphens replaced by underscores, the bracketed
link text, one space and the left-stripped description; the suffix macro
is dropped from the rewritten bullet, not retained.  In files with several
bullet lines, a matched span's text occurring inside another bullet is
also rewritten by the content-based replacement, so that bullet can end
corrupted rather than rewritten to its own xref form. -/
theorem claim_C1 {anchor sfx text desc : List Char}
    (ha : anchor ≠ []) (haw : ∀ c ∈ anchor, (isWordChar c || c = '-') = true)
    (hs : sfx ≠ []) (hsw : ∀ c ∈ sfx, isWordChar c = true)
    (htext : text ≠ []) (htw : ∀ c ∈ text, c ≠ '\n' ∧ c ≠ '=')
    (hdesc : desc ≠ []) (hdw : ∀ c ∈ desc, c ≠ ']' ∧ c ≠ '\n' ∧ c ≠ '=') :
    format_command_file ("* link:".data ++ (anchor ++ '\x7b' :: (sfx ++ '\x7d' :: '[' ::
        (text ++ ']' :: desc)))) =
      "* xref:_".data ++ (anchor.map underscoreHyphen ++ '[' ::
        (text ++ ']' :: ' ' :: pyLstrip desc)) :=
  format_link_canonical ha haw hs hsw htext htw hdesc hdw

/-- C1, witness: the amended statement applied to the kafka command link. -/
theorem claim_C1_witness :
    format_command_file ("* link:".data ++ ("rhoas-kafka".data ++ '\x7b' ::
        ("relfilesuffix".data ++ '\x7d' :: '[' ::
        ("rhoas kafka".data ++ ']' :: " - Kafka commands".data)))) =
      "* xref:_".data ++ ("rhoas-kafka".data.map underscoreHyphen ++ '[' ::
        ("rhoas kafka".data ++ ']' :: ' ' :: pyLstrip " - Kafka commands".data)) :=
  claim_C1 (by decide) (by decide) (by decide) (by decide) (by decide) (by decide)
    (by decide) (by decide)

/-- C2: the assembly generator writes exactly the fixed identifier line, the
fixed title, the abstract marker line and fixed abstract text, then one
include directive with a one-level heading offset per directory entry whose
extension is adoc, in lexicographically sorted name order; on the directory
holding ref-cli-foo.adoc, ref-cli-bar.adoc and notes.txt it emits exactly
two include directives, bar before foo, and skips notes.txt. -/
theorem claim_C2 :
    (∀ names : List (List Char), generate_command_ref_assembly names =
      assemblyHeader ++ concatAll ((pySorted (names.filter
        (fun n => decide (pySuffix n = ".adoc".data)))).map includeLine)) ∧
    generate_command_ref_assembly
        ["ref-cli-foo.adoc".data, "ref-cli-bar.adoc".data, "notes.txt".data] =
      ("[id=\"cli-command-reference_\x7bcontext\x7d\"]\n= CLI command reference\n\n[role=\"_abstract\"]\nYou use the `rhoas` CLI to manage your application services from the command line.\n\ninclude::../\x7brhoas-module\x7d/ref-cli-bar.adoc[leveloffset=+1]\ninclude::../\x7brhoas-module\x7d/ref-cli-foo.adoc[leveloffset=+1]\n").data := by
  constructor
  · intro names
    rw [generate_command_ref_assembly, assemblyModules, pySorted_filter_comm]
  · decide

/-- C3: the dev preview injector is idempotent, and a file whose content
already holds the admonition text verbatim is left byte for byte
unchanged by one invocation. -/
theorem claim_C3 (c : List Char) :
    applyNote (applyNote c) = applyNote c ∧
    (hasSub c DEV_PREVIEW_NOTE = true → applyNote c = c) := by
  have hid : ∀ d : List Char, hasSub d DEV_PREVIEW_NOTE = true → applyNote d = d := by
    intro d h
    show (add_dev_preview_note d).1 = d
    unfold add_dev_preview_note
    rw [if_pos h]
  refine ⟨?_, hid c⟩
  by_cases h1 : hasSub c DEV_PREVIEW_NOTE = true
  · rw [hid c h1, hid c h1]
  · have h1' : hasSub c DEV_PREVIEW_NOTE = false := by simpa using h1
    have happ : applyNote c = replaceAll c ABSTRACT
        (DEV_PREVIEW_NOTE ++ '\n' :: '\n' :: ABSTRACT) := by
      show (add_dev_preview_note c).1 = _
      unfold add_dev_preview_note
      rw [if_neg (by simp [h1'])]
    by_cases h2 : hasSub c ABSTRACT = true
    · have hnote : hasSub (applyNote c) DEV_PREVIEW_NOTE = true := by
        rw [happ]
        exact hasSub_replaceAll (by decide) (begins_append_self _ _) h2
      rw [hid _ hnote]
    · have h2' : hasSub c ABSTRACT = false := by simpa using h2
      have hsame : applyNote c = c := by
        rw [happ, replaceAll_no_sub _ h2']
      rw [hsame, hsame]

/-- C3, witness: a content already holding the admonition is unchanged. -/
theorem claim_C3_witness :
    applyNote (DEV_PREVIEW_NOTE ++ '\n' :: ABSTRACT) =
      DEV_PREVIEW_NOTE ++ '\n' :: ABSTRACT :=
  (claim_C3 (DEV_PREVIEW_NOTE ++ '\n' :: ABSTRACT)).2 (by decide)

/-- C4, counterexample: in a file holding the heading of four markers and
text 1a above the heading of three markers and the same text, the
four-marker heading is rewritten twice, ending two levels higher, and the
output nowhere holds it with exactly one fewer marker. -/
theorem claim_C4_counterexample :
    format_command_file "==== 1a\n=== 1a".data
      = "[discrete]\n[discrete]\n== 1a\n[discrete]\n== 1a".data ∧
    hasSub "[discrete]\n[discrete]\n== 1a\n[discrete]\n== 1a".data "=== 1a".data
      = false := by
  constructor
  · decide
  · decide

/-- C4, amended: for every file consisting of one heading line of three or
more markers, a space and the heading text, the formatter output is the
discrete marker line followed by the heading with exactly one marker
stripped and the text capitalized. -/
theorem claim_C4 {n : Nat} (hn : 3 ≤ n) {text : List Char} (htext : text ≠ [])
    (hsafe : ∀ c ∈ text, c ≠ '\n' ∧ c ≠ '*') :
    format_command_file (List.replicate n '=' ++ ' ' :: text) =
      "[discrete]\n".data ++ List.replicate (n - 1) '=' ++ ' ' :: pyCapitalize text :=
  format_heading_canonical hn htext hsafe

/-- C4, witness: the amended statement applied to a three-marker heading. -/
theorem claim_C4_witness :
    format_command_file (List.replicate 3 '=' ++ ' ' :: "synopsis".data) =
      "[discrete]\n".data ++ List.replicate 2 '=' ++ ' ' :: pyCapitalize "synopsis".data :=
  claim_C4 (by decide) (by decide) (by decide)

/-- C5, counterexample: in a file whose option description holds the text of
a second, more indented option line, the second matched span is replaced
everywhere, mangling the first entry's description, so the output does not
hold the first flag's definition entry with its description on the next
line. -/
theorem claim_C5_counterexample :
    format_command_file "  -x, --foo  see   --bar  below\n   --bar  below".data
      = "`-x, --foo`::\nsee`--bar`::\nbelow\n`--bar`::\nbelow".data ∧
    hasSub "`-x, --foo`::\nsee`--bar`::\nbelow\n`--bar`::\nbelow".data
      "`-x, --foo`::\nsee   --bar  below".data = false := by
  constructor
  · decide
  · decide

/-- C5, amended: for every file consisting of one option line of the shape
two spaces, short flag, comma, space, long flag, two spaces and a
description, the formatter output is the flag token wrapped in inline code,
the double-colon definition marker, and the stripped description on the
next line. -/
theorem claim_C5 {x : Char} {flag desc : List Char}
    (hx : isWordChar x = true) (hf : flag ≠ [])
    (hfw : ∀ c ∈ flag, isLowerAZ c = true)
    (hd : ∀ c ∈ desc, c ≠ '\n' ∧ c ≠ '=' ∧ c ≠ '*') :
    format_command_file (' ' :: ' ' :: '-' :: x :: ',' :: ' ' :: '-' :: '-' ::
        (flag ++ ' ' :: ' ' :: desc)) =
      '`' :: ('-' :: x :: ',' :: ' ' :: '-' :: '-' :: flag ++ "`::\n".data
        ++ pyStrip desc) :=
  format_option_canonical hx hf hfw hd

/-- C5, witness: the amended statement applied to the verbose flag line. -/
theorem claim_C5_witness :
    format_command_file (' ' :: ' ' :: '-' :: 'v' :: ',' :: ' ' :: '-' :: '-' ::
        ("verbose".data ++ ' ' :: ' ' :: "prints more output".data)) =
      '`' :: ('-' :: 'v' :: ',' :: ' ' :: '-' :: '-' :: "verbose".data ++ "`::\n".data
        ++ pyStrip "prints more output".data) :=
  claim_C5 (by decide) (by decide) (by decide) (by decide)

/-- C6: for every content in which the product-command title pattern does
not occur at the start, the title promotion pass returns the content
unchanged. -/
theorem claim_C6 {c : List Char} (h : titleHeadingAt c = false) : titlePass c = c := by
  apply titlePass_of_none
  cases hm : titleMatch c with
  | none => rfl
  | some g =>
    rw [titleMatch_spec hm] at h
    exact absurd h (by simp)

/-- C6, witness: a file with no product-command title is unchanged. -/
theorem claim_C6_witness :
    titlePass "CLI overview\nfoo".data = "CLI overview\nfoo".data :=
  claim_C6 (by decide)

/-- C7, counterexample: the assembly generator emits an include directive
for the file zz-other.adoc even though its stem does not start with the
ref-cli name convention, so include emission is not selected by the
filename-prefix match the claim states. -/
theorem claim_C7_counterexample :
    hasSub (generate_command_ref_assembly ["zz-other.adoc".data])
      "include::../\x7brhoas-module\x7d/zz-other.adoc[leveloffset=+1]".data = true ∧
    begins (pyStem "zz-other.adoc".data) "ref-cli".data = false := by
  constructor
  · decide
  · decide

/-- C7, amended: the formatter rewrites exactly the files whose stem starts
with the ref-cli convention and whose extension is adoc, while the assembly
generator emits an include directive for exactly the files whose extension
is adoc, with no filename-prefix condition. -/
theorem claim_C7 (names : List (List Char)) (n : List Char) :
    (n ∈ formatter_targets names ↔
      n ∈ names ∧ begins (pyStem n) "ref-cli".data = true ∧
        pySuffix n = ".adoc".data) ∧
    (n ∈ assemblyModules names ↔ n ∈ names ∧ pySuffix n = ".adoc".data) :=
  ⟨formatter_targets_mem names n, assemblyModules_mem names n⟩

/-- C8: when the admonition is absent and the abstract marker occurs exactly
once, splitting the content as a front part, the marker and a back part
with no further marker occurrence, the injector writes back the content
with the admonition and a blank line inserted immediately before the
marker, changing nothing else. -/
theorem claim_C8 {pre post : List Char}
    (h1 : hasSub (pre ++ ABSTRACT ++ post) DEV_PREVIEW_NOTE = false)
    (h2 : hasSub pre ABSTRACT = false) (h3 : hasSub post ABSTRACT = false) :
    add_dev_preview_note (pre ++ ABSTRACT ++ post) =
      (pre ++ (DEV_PREVIEW_NOTE ++ '\n' :: '\n' :: ABSTRACT) ++ post, true) := by
  unfold add_dev_preview_note
  rw [if_neg (by rw [h1]; simp)]
  have hnb : noBorder ABSTRACT := by
    unfold noBorder
    decide
  rw [replaceAll_surround (by decide) hnb h2 h3]

/-- C8, witness: insertion before the marker of a small assembly file. -/
theorem claim_C8_witness :
    add_dev_preview_note ("Intro\n".data ++ ABSTRACT ++ "\nBody".data) =
      ("Intro\n".data ++ (DEV_PREVIEW_NOTE ++ '\n' :: '\n' :: ABSTRACT)
        ++ "\nBody".data, true) :=
  claim_C8 (by decide) (by decide) (by decide)

/-- C9: on a content holding neither the admonition nor the abstract
marker, the injector still writes the file, with byte-identical content. -/
theorem claim_C9 {c : List Char} (h1 : hasSub c DEV_PREVIEW_NOTE = false)
    (h2 : hasSub c ABSTRACT = false) :
    add_dev_preview_note c = (c, true) := by
  unfold add_dev_preview_note
  rw [if_neg (by simp [h1])]
  rw [replaceAll_no_sub _ h2]

/-- C9, witness: a plain file is rewritten unchanged. -/
theorem claim_C9_witness :
    add_dev_preview_note "plain file\n".data = ("plain file\n".data, true) :=
  claim_C9 (by decide) (by decide)

/-- C10: each rewrite pass substitutes by matched text, replacing every
occurrence of the matched span's text: for each pass there is an input
holding a second, non-matching occurrence of a matched span's text, with
two occurrences before the pass and two copies of the replacement after
it.  For the title pass the second occurrence sits mid-line away from the
anchored position; for the heading pass it is the front of a longer
matched line; for the link pass it is the front of a longer matched
bullet; for the option pass it sits mid-line, off the line start. -/
theorem claim_C10 :
    (countOcc "== rhoas\n\nDesc\nsee == rhoas\n\nDesc".data "== rhoas\n\nDesc".data = 2 ∧
     titlePass "== rhoas\n\nDesc\nsee == rhoas\n\nDesc".data =
       "= rhoas\n\n\n[role=\"_abstract\"]\nDesc\nsee = rhoas\n\n\n[role=\"_abstract\"]\nDesc".data ∧
     countOcc "= rhoas\n\n\n[role=\"_abstract\"]\nDesc\nsee = rhoas\n\n\n[role=\"_abstract\"]\nDesc".data
       "= rhoas\n\n\n[role=\"_abstract\"]\nDesc".data = 2) ∧
    (countOcc "=== 1a\nx === 1a y".data "=== 1a".data = 2 ∧
     headingPass "=== 1a\nx === 1a y".data =
       "[discrete]\n== 1a\nx [discrete]\n== 1a y".data ∧
     countOcc "[discrete]\n== 1a\nx [discrete]\n== 1a y".data "[discrete]\n== 1a".data = 2) ∧
    (countOcc "* link:a-b\x7bs\x7d[t] d\n* link:a-b\x7bs\x7d[t] d e".data
       "* link:a-b\x7bs\x7d[t] d".data = 2 ∧
     linkPass "* link:a-b\x7bs\x7d[t] d\n* link:a-b\x7bs\x7d[t] d e".data =
       "* xref:_a_b[t] d\n* xref:_a_b[t] d e".data ∧
     countOcc "* xref:_a_b[t] d\n* xref:_a_b[t] d e".data "* xref:_a_b[t] d".data = 2) ∧
    (countOcc "  --foo  bar\nz  --foo  bar".data "  --foo  bar".data = 2 ∧
     optionPass "  --foo  bar\nz  --foo  bar".data = "`--foo`::\nbar\nz`--foo`::\nbar".data ∧
     countOcc "`--foo`::\nbar\nz`--foo`::\nbar".data "`--foo`::\nbar".data = 2) := by
  refine ⟨⟨?_, ?_, ?_⟩, ⟨?_, ?_, ?_⟩, ⟨?_, ?_, ?_⟩, ⟨?_, ?_, ?_⟩⟩ <;> decide

end Adoc
